import Mathlib

/-! # kmodloader: module registry and dependency-driven loading

A shallow embedding of `src/kmodloader.c`.

* C strings live in byte buffers (`List Nat`); a buffer is modelled without the
  terminating NUL that `strdup` appends, so reading the byte just behind the list
  yields `0`. The C string held by a buffer is `cstr buf`, the bytes before the
  first NUL.
* The global list `modules` is a `List module`; a `struct module *` is an index
  into that list.
* Code that dereferences a NULL pointer or reads outside the mapped image returns
  a `Fault`; loops without a syntactic bound take fuel.
* The kernel and the file system are a `World` of oracles indexed by a clock.
-/

namespace Kmodloader

/-! ## Bytes and C strings -/

/-- Bytes of a string literal. -/
def str (s : String) : List Nat := s.toList.map Char.toNat

/-- The C string stored at the start of a buffer: the bytes before the first NUL. -/
def cstr : List Nat → List Nat
  | [] => []
  | b :: bs => if b = 0 then [] else b :: cstr bs

/-- Whether `needle` is a prefix of `hay`. -/
def starts_with : List Nat → List Nat → Bool
  | _, [] => true
  | [], _ :: _ => false
  | h :: hs, n :: ns => h = n && starts_with hs ns

/-- The libc `strstr` on C string contents: offset of the first occurrence of
`needle` in `hay`, `none` for a NULL result. -/
def strstr : List Nat → List Nat → Option Nat
  | [], needle => if needle = [] then some 0 else none
  | h :: hs, needle =>
    if starts_with (h :: hs) needle then some 0
    else (strstr hs needle).map (· + 1)

/-- The in-place rewriting loop `while (t && *t) { if (*t == a) *t = b; t++; }`
shared by `get_module_path` and `get_module_name`: it stops at the first NUL. -/
def rewrite (a b : Nat) : List Nat → List Nat
  | [] => []
  | c :: cs => if c = 0 then c :: cs else (if c = a then b else c) :: rewrite a b cs

/-! ## Data model -/

/-- Ways in which the C code leaves defined behaviour, plus fuel exhaustion of the
model's loops. -/
inductive Fault where
  | null_deref
  | out_of_bounds
  | out_of_fuel
  deriving DecidableEq, Repr

/-- The anonymous enum of module states. -/
inductive State where
  | SCANNED
  | PROBE
  | LOADED
  | FAILED
  deriving DecidableEq, Repr

/-- The record `struct module` without its list linkage. `name` and `depends` are the
heap buffers behind the two pointers; `depends = none` is a NULL pointer. -/
structure module where
  name : List Nat
  depends : Option (List Nat)
  size : Int
  usage : Int
  state : State
  deriving DecidableEq, Repr

/-- The function `find_module`: position of the first record whose name compares
equal (`strcmp`) to `name`. -/
def find_module : List module → List Nat → Option Nat
  | [], _ => none
  | m :: ms, name =>
    if cstr m.name = cstr name then some 0
    else (find_module ms name).map (· + 1)

/-- State of the record at a position of the list. -/
def state_at (modules : List module) (i : Nat) : Option State :=
  (modules[i]?).map (·.state)

/-- Number of records in state `PROBE`. -/
def probe_count : List module → Nat
  | [] => 0
  | m :: ms => (if m.state = State.PROBE then 1 else 0) + probe_count ms

/-! ## Dependency check -/

/-- The `while` loop of `deps_available`. `buf` is the buffer behind `m->depends`,
`deps` the offset of the cursor in it. Returns the function's result and the buffer
as the loop leaves it: every comma it found has been overwritten with NUL. -/
def deps_available_loop (modules : List module) :
    Nat → List Nat → Nat → Except Fault (Int × List Nat)
  | 0, _, _ => .error .out_of_fuel
  | fuel + 1, buf, deps =>
    if buf.getD deps 0 = 0 then .ok (0, buf)
    else
      match strstr (cstr (buf.drop deps)) [44] with
      | none => .ok (0, buf)
      | some k =>
        let comma := deps + k
        let buf1 := buf.set comma 0
        match find_module modules (buf1.drop deps) with
        | none => .ok (-1, buf1)
        | some j =>
          if state_at modules j ≠ some State.LOADED then .ok (-1, buf1)
          else deps_available_loop modules fuel buf1 (comma + 1)

/-- The function `deps_available`: result (`0` available, `-1` not) and the record
with its `depends` buffer as the call leaves it. A NULL `depends` faults in
`strcmp`. The cursor advances by at least one byte per iteration, so the buffer
length bounds the loop. -/
def deps_available (modules : List module) (m : module) : Except Fault (Int × module) :=
  match m.depends with
  | none => .error .null_deref
  | some buf =>
    if cstr buf = [45] then .ok (0, m)
    else
      match deps_available_loop modules (buf.length + 1) buf 0 with
      | .error e => .error e
      | .ok (r, buf1) => .ok (r, { m with depends := some buf1 })

/-! ## Locating and inserting a module file -/

/-- The environment of one run: `uname` release, and the outcomes of `stat` and of
reading a file and submitting it to `init_module`, each at clock tick `t`. -/
structure World where
  release : List Nat
  stat : Nat → List Nat → Bool
  init_module : Nat → List Nat → Bool

/-- Result of `snprintf(path, 256, DEF_MOD_PATH "%s.ko", ver.release, name)`. -/
def module_path (release name : List Nat) : List Nat :=
  (str "/lib/modules/" ++ cstr release ++ str "/" ++ cstr name ++ str ".ko").take 255

/-- The function `get_module_path`: the path found (`none` for NULL) and the `name`
buffer as the call leaves it; the third probe rewrites `_` to `-` in place. -/
def get_module_path (w : World) (t : Nat) (name : List Nat) : Option (List Nat) × List Nat :=
  if w.stat t (cstr name) then (some (cstr name), name)
  else if w.stat t (module_path w.release name) then
    (some (module_path w.release name), name)
  else
    let name1 := rewrite 95 45 name
    if w.stat t (module_path w.release name1) then
      (some (module_path w.release name1), name1)
    else (none, name1)

/-- The function `insert_module` with the empty option string: `0` on success, `-1`
when the file is missing, cannot be read in full, or the kernel rejects it. -/
def insert_module (w : World) (t : Nat) (path : Option (List Nat)) : Int :=
  match path with
  | none => -1
  | some p => if w.stat t p then (if w.init_module t p then 0 else -1) else -1

/-! ## Dependency-driven loading -/

/-- One call of `insert_module` made by `load_depmod` (ghost record): position of the
record, the registry when the record was visited, the call's result, and the
registry after the state assignment. -/
structure Attempt where
  idx : Nat
  before : List module
  ret : Int
  after : List module
  deriving DecidableEq, Repr

/-- Variables of one pass of `load_depmod`, with the ghost log of attempts. The C
`int` counters count records of one pass and are modelled unbounded. -/
structure Run where
  modules : List module
  loaded : Int
  todo : Int
  log : List Attempt

/-- Body of `list_for_each_entry` in `load_depmod` for the record at position `i`.
The clock of the world is the number of attempts made so far. -/
def visit (w : World) (i : Nat) (s : Run) : Except Fault Run :=
  match s.modules[i]? with
  | none => .ok s
  | some m =>
    if m.state = State.PROBE then
      match deps_available s.modules m with
      | .error e => .error e
      | .ok (r, m1) =>
        if r = 0 then
          let p := get_module_path w s.log.length m1.name
          let ret := insert_module w s.log.length p.1
          let m2 : module :=
            { m1 with name := p.2, state := if ret = 0 then State.LOADED else State.FAILED }
          let ms := s.modules.set i m2
          .ok { modules := ms, loaded := if ret = 0 then s.loaded + 1 else s.loaded,
                todo := s.todo, log := s.log ++ [⟨i, s.modules, ret, ms⟩] }
        else
          .ok { modules := s.modules.set i m1, loaded := s.loaded, todo := s.todo + 1,
                log := s.log }
    else .ok s

/-- The loop `list_for_each_entry` from position `i` on, over the next `n` records. -/
def pass_from (w : World) : Nat → Nat → Run → Except Fault Run
  | 0, _, s => .ok s
  | n + 1, i, s =>
    match visit w i s with
    | .error e => .error e
    | .ok s1 => pass_from w n (i + 1) s1

/-- One iteration of the `do`/`while` body: counters reset, every record visited. -/
def pass (w : World) (modules : List module) (log : List Attempt) : Except Fault Run :=
  pass_from w modules.length 0 ⟨modules, 0, 0, log⟩

/-- What `load_depmod` leaves behind: return value, registry, and the ghost log of
attempts and number of passes. -/
structure Result where
  ret : Int
  modules : List module
  log : List Attempt
  passes : Nat

/-- The `do { ... } while (loaded)` loop of `load_depmod`. -/
def load_depmod_loop (w : World) :
    Nat → List module → List Attempt → Nat → Except Fault Result
  | 0, _, _, _ => .error .out_of_fuel
  | fuel + 1, modules, log, passes =>
    match pass w modules log with
    | .error e => .error e
    | .ok s =>
      if s.loaded ≠ 0 then load_depmod_loop w fuel s.modules s.log (passes + 1)
      else .ok ⟨-s.todo, s.modules, s.log, passes + 1⟩

/-- The function `load_depmod` on the registry `modules`, with fuel for the passes. -/
def load_depmod (w : World) (fuel : Nat) (modules : List module) : Except Fault Result :=
  load_depmod_loop w fuel modules [] 0

/-! ## Module names -/

/-- The GNU `basename` of `<string.h>` on C string contents: the part behind the last
`/`, the whole string when it has none. -/
def basename : List Nat → List Nat
  | [] => []
  | c :: cs => if cs.contains 47 then basename cs else if c = 47 then cs else c :: cs

/-- The function `get_module_name`: the C string left in the static buffer `name[32]`.
`strncpy` pads a base name shorter than 32 bytes with NULs; a longer one fills the
buffer without terminator, and the `strstr` that follows reads behind the buffer. -/
def get_module_name (path : List Nat) : Except Fault (List Nat) :=
  let base := basename (cstr path)
  if 32 ≤ base.length then .error .out_of_bounds
  else
    let name := base ++ List.replicate (32 - base.length) 0
    let name1 :=
      match strstr (cstr name) [46, 107, 111] with
      | some t => name.set t 0
      | none => name
    .ok (cstr (rewrite 45 95 name1))

/-! ## Object images

An image is the list of bytes readable from the address `map` on; an address is an
offset into it, and a read behind its end faults. -/

/-- Offsets and widths of the fields that `elf_find_section` reads through the types
of `<elf.h>`, and the byte order of the host. `e_shnum`, `e_shstrndx` are 2 bytes wide
and `sh_name` is 4 bytes wide in both classes. -/
structure ElfLayout where
  big_endian : Bool
  e_shoff_at : Nat
  e_shoff_len : Nat
  e_shnum_at : Nat
  e_shstrndx_at : Nat
  shdr_len : Nat
  sh_name_at : Nat
  sh_offset_at : Nat
  sh_offset_len : Nat
  sh_size_at : Nat
  sh_size_len : Nat

/-- Layout of `Elf64_Ehdr` and `Elf64_Shdr` (branch `__WORDSIZE == 64`), little endian. -/
def elf64 : ElfLayout := ⟨false, 40, 8, 60, 62, 64, 0, 24, 8, 32, 8⟩

/-- Layout of `Elf32_Ehdr` and `Elf32_Shdr` (the `#else` branch), little endian. -/
def elf32 : ElfLayout := ⟨false, 32, 4, 48, 50, 40, 0, 16, 4, 20, 4⟩

/-- The bytes `addr .. addr + len - 1` of the image. -/
def read_bytes (map : List Nat) : Nat → Nat → Except Fault (List Nat)
  | _, 0 => .ok []
  | addr, len + 1 =>
    match map[addr]? with
    | none => .error .out_of_bounds
    | some b =>
      match read_bytes map (addr + 1) len with
      | .error e => .error e
      | .ok bs => .ok (b :: bs)

/-- Value of a little-endian byte sequence. -/
def le_value : List Nat → Nat
  | [] => 0
  | b :: bs => b % 256 + 256 * le_value bs

/-- An unsigned integer field of `len` bytes at `addr`. -/
def read_uint (L : ElfLayout) (map : List Nat) (addr len : Nat) : Except Fault Nat :=
  match read_bytes map addr len with
  | .error e => .error e
  | .ok bs => .ok (le_value (if L.big_endian then bs.reverse else bs))

/-- Result of `!strcmp(s, map + addr)` for C string contents `s`: bytes are compared
one by one up to the first difference or the NUL that ends both. -/
def strcmp_at (map : List Nat) : Nat → List Nat → Except Fault Bool
  | addr, [] =>
    match map[addr]? with
    | none => .error .out_of_bounds
    | some b => .ok (b = 0)
  | addr, c :: cs =>
    match map[addr]? with
    | none => .error .out_of_bounds
    | some b => if b = c then strcmp_at map (addr + 1) cs else .ok false

/-- The `for` loop of `elf_find_section` from index `i` on, `n` headers left. `shoff` is
`e->e_shoff`, `secnames` the offset of the section name string table. The result is
`some (offset, size)` for a return of `0` with the two `unsigned int` out-parameters
set, and `none` for a return of `-1`. -/
def elf_find_section_loop (L : ElfLayout) (map sect : List Nat) (shoff secnames : Nat) :
    Nat → Nat → Except Fault (Option (Nat × Nat))
  | 0, _ => .ok none
  | n + 1, i =>
    match read_uint L map (shoff + i * L.shdr_len + L.sh_name_at) 4 with
    | .error e => .error e
    | .ok sh_name =>
      match strcmp_at map (secnames + sh_name) sect with
      | .error e => .error e
      | .ok true =>
        match read_uint L map (shoff + i * L.shdr_len + L.sh_size_at) L.sh_size_len with
        | .error e => .error e
        | .ok sh_size =>
          match read_uint L map (shoff + i * L.shdr_len + L.sh_offset_at) L.sh_offset_len with
          | .error e => .error e
          | .ok sh_offset => .ok (some (sh_offset % 2 ^ 32, sh_size % 2 ^ 32))
      | .ok false => elf_find_section_loop L map sect shoff secnames n (i + 1)

/-- The function `elf_find_section`, both branches of the `#if` through the layout. -/
def elf_find_section (L : ElfLayout) (map sect : List Nat) :
    Except Fault (Option (Nat × Nat)) :=
  match read_uint L map L.e_shoff_at L.e_shoff_len with
  | .error e => .error e
  | .ok e_shoff =>
    match read_uint L map L.e_shstrndx_at 2 with
    | .error e => .error e
    | .ok e_shstrndx =>
      match read_uint L map (e_shoff + e_shstrndx * L.shdr_len + L.sh_offset_at)
          L.sh_offset_len with
      | .error e => .error e
      | .ok secnames =>
        match read_uint L map L.e_shnum_at 2 with
        | .error e => .error e
        | .ok e_shnum =>
          elf_find_section_loop L map (cstr sect) e_shoff secnames e_shnum 0

/-- The C string that starts at the head of a list of bytes, `none` when no NUL ends
it inside the list. -/
def cstr_in : List Nat → Option (List Nat)
  | [] => none
  | b :: bs => if b = 0 then some [] else (cstr_in bs).map (b :: ·)

/-- The C string at an address of the image; a string that runs off the image faults. -/
def cstr_at (map : List Nat) (addr : Nat) : Except Fault (List Nat) :=
  match cstr_in (map.drop addr) with
  | none => .error .out_of_bounds
  | some s => .ok s

/-- Specification side: one entry of the section header table, its name resolved
through the string table. -/
structure SectionHeader where
  name : List Nat
  sh_offset : Nat
  sh_size : Nat
  deriving DecidableEq, Repr

/-- Specification side: the section headers `i .. i + n - 1`, decoded in full. -/
def section_headers_from (L : ElfLayout) (map : List Nat) (shoff secnames : Nat) :
    Nat → Nat → Except Fault (List SectionHeader)
  | 0, _ => .ok []
  | n + 1, i =>
    match read_uint L map (shoff + i * L.shdr_len + L.sh_name_at) 4 with
    | .error e => .error e
    | .ok sh_name =>
      match cstr_at map (secnames + sh_name) with
      | .error e => .error e
      | .ok name =>
        match read_uint L map (shoff + i * L.shdr_len + L.sh_size_at) L.sh_size_len with
        | .error e => .error e
        | .ok sh_size =>
          match read_uint L map (shoff + i * L.shdr_len + L.sh_offset_at) L.sh_offset_len with
          | .error e => .error e
          | .ok sh_offset =>
            match section_headers_from L map shoff secnames n (i + 1) with
            | .error e => .error e
            | .ok rest => .ok (⟨name, sh_offset, sh_size⟩ :: rest)

/-- Specification side: the section header table of an image. It is defined exactly
when the file header, the `e_shnum` section headers and the names they refer to in the
section name string table lie inside the image. -/
def section_headers (L : ElfLayout) (map : List Nat) : Except Fault (List SectionHeader) :=
  match read_uint L map L.e_shoff_at L.e_shoff_len with
  | .error e => .error e
  | .ok e_shoff =>
    match read_uint L map L.e_shstrndx_at 2 with
    | .error e => .error e
    | .ok e_shstrndx =>
      match read_uint L map (e_shoff + e_shstrndx * L.shdr_len + L.sh_offset_at)
          L.sh_offset_len with
      | .error e => .error e
      | .ok secnames =>
        match read_uint L map L.e_shnum_at 2 with
        | .error e => .error e
        | .ok e_shnum => section_headers_from L map e_shoff secnames e_shnum 0

/-! ## Module information -/

/-- The loop `while (!strings[0]) strings++;` on the bytes from `strings` on: the number
of NUL bytes skipped, `none` when the loop runs off the image. -/
def skip_nul : List Nat → Option Nat
  | [] => none
  | b :: bs => if b = 0 then (skip_nul bs).map (· + 1) else some 0

/-- Result of `!strncmp(a, b, n)` on C string contents. -/
def strncmp_eq (a b : List Nat) (n : Nat) : Bool := a.take n = b.take n

/-- One `key=value` string that a parsing loop treated as an entry (ghost record): its
address in the image, the bytes before the first `=` and the C string behind it. -/
structure Entry where
  addr : Nat
  key : List Nat
  value : List Nat
  deriving DecidableEq, Repr

/-- The `while` loop of `get_module_info`. `strings` is the cursor, `stop` is
`map + offset + size`, `depends` the value of `m->depends` so far; `seen` collects the
entries visited. -/
def get_module_info_loop (map : List Nat) (stop : Nat) :
    Nat → Nat → Option (List Nat) → List Entry →
      Except Fault (Option (List Nat) × List Entry)
  | 0, _, _, _ => .error .out_of_fuel
  | fuel + 1, strings, depends, seen =>
    if strings < stop then
      match skip_nul (map.drop strings) with
      | none => .error .out_of_bounds
      | some k =>
        match cstr_at map (strings + k) with
        | .error e => .error e
        | .ok entry =>
          match strstr entry [61] with
          | none => .ok (depends, seen)
          | some len =>
            let sep := entry.drop (len + 1)
            let depends1 :=
              if strncmp_eq entry (str "depends=") (len + 1) then some sep else depends
            get_module_info_loop map stop fuel (strings + k + entry.length) depends1
              (seen ++ [⟨strings + k, entry.take len, sep⟩])
    else .ok (depends, seen)

/-- The files that can be opened and mapped: the image behind a path, `none` when
`open`, `fstat` or `mmap` fails. -/
structure Files where
  image : List Nat → Option (List Nat)

/-- The function `get_module_info`: `none` for a NULL result, otherwise the record it
allocates together with the entries its loop visited. The record's `name` is still
NULL (written here as the empty buffer); the caller sets it. Every iteration moves
the cursor forward, so `size + 1` bounds the number of loop tests. -/
def get_module_info (L : ElfLayout) (fs : Files) (path : List Nat) :
    Except Fault (Option (module × List Entry)) :=
  match fs.image (cstr path) with
  | none => .ok none
  | some map =>
    match elf_find_section L map (str ".modinfo") with
    | .error e => .error e
    | .ok none => .ok none
    | .ok (some (offset, size)) =>
      match get_module_info_loop map (offset + size) (size + 1) offset none [] with
      | .error e => .error e
      | .ok (depends, seen) =>
        .ok (some (⟨[], depends, map.length, 0, State.SCANNED⟩, seen))

/-- The `while` loop of `print_modinfo`: the bytes it prints. -/
def print_modinfo_loop (map : List Nat) (stop : Nat) :
    Nat → Nat → List Nat → Except Fault (List Nat)
  | 0, _, _ => .error .out_of_fuel
  | fuel + 1, strings, out =>
    if strings < stop then
      match skip_nul (map.drop strings) with
      | none => .error .out_of_bounds
      | some k =>
        match cstr_at map (strings + k) with
        | .error e => .error e
        | .ok entry =>
          match strstr entry [61] with
          | none => .ok out
          | some len =>
            let dup := entry.take len
            let sep := entry.drop (len + 1)
            let line :=
              if strncmp_eq entry (str "parm") 4 then []
              else if dup.length < 7 then dup ++ str ":\t\t" ++ sep ++ str "\n"
              else dup ++ str ":\t" ++ sep ++ str "\n"
            print_modinfo_loop map stop fuel (strings + k + entry.length) (out ++ line)
    else .ok out

/-- The function `print_modinfo`: return value and the bytes written to `stdout`. -/
def print_modinfo (L : ElfLayout) (fs : Files) (path : List Nat) :
    Except Fault (Int × List Nat) :=
  match fs.image (cstr path) with
  | none => .ok (-1, [])
  | some map =>
    match elf_find_section L map (str ".modinfo") with
    | .error e => .error e
    | .ok none => .ok (-1, [])
    | .ok (some (offset, size)) =>
      match print_modinfo_loop map (offset + size) (size + 1) offset
          (str "module:\t\t" ++ cstr path ++ str "\n") with
      | .error e => .error e
      | .ok out => .ok (0, out)

/-! ## Populating the registry -/

/-- One call of `strtok` with delimiter `" "` on the C string that is left: the token
(`none` for NULL) and the string left behind it. -/
def strtok (s : List Nat) : Option (List Nat) × List Nat :=
  let s1 := s.dropWhile (· = 32)
  if s1 = [] then (none, [])
  else (some (s1.takeWhile (· ≠ 32)), ((s1.dropWhile (· ≠ 32)).drop 1))

/-- Value of a run of leading decimal digits, given the value read so far. -/
def digits_value : List Nat → Nat → Nat
  | [], acc => acc
  | c :: cs, acc => if 48 ≤ c ∧ c ≤ 57 then digits_value cs (10 * acc + (c - 48)) else acc

/-- The libc `atoi` on C string contents: white space, an optional sign, digits. A
value that does not fit an `int` is undefined in C; the model keeps the number. -/
def atoi (s : List Nat) : Int :=
  match s.dropWhile (fun c => c = 32 ∨ (9 ≤ c ∧ c ≤ 13)) with
  | [] => 0
  | c :: cs =>
    if c = 45 then -(digits_value cs 0 : Int)
    else if c = 43 then (digits_value cs 0 : Int)
    else (digits_value (c :: cs) 0 : Int)

/-- Body of the `while (fgets(...))` loop of `scan_loaded_modules` for one line. A
line with fewer than three tokens passes NULL to `atoi`; a line with three tokens is
skipped; allocation is taken to succeed. -/
def scan_loaded_line (line : List Nat) (modules : List module) : Except Fault (List module) :=
  let t1 := strtok (cstr line)
  let t2 := strtok t1.2
  match t2.1 with
  | none => .error .null_deref
  | some size =>
    let t3 := strtok t2.2
    match t3.1 with
    | none => .error .null_deref
    | some usage =>
      let t4 := strtok t3.2
      match t1.1, t4.1 with
      | some name, some depends =>
        .ok (modules ++ [⟨name, some depends, atoi size, atoi usage, State.LOADED⟩])
      | _, _ => .ok modules

/-- The `while (fgets(...))` loop of `scan_loaded_modules`. -/
def scan_loaded_lines : List (List Nat) → List module → Except Fault (List module)
  | [], modules => .ok modules
  | line :: lines, modules =>
    match scan_loaded_line line modules with
    | .error e => .error e
    | .ok modules1 => scan_loaded_lines lines modules1

/-- The function `scan_loaded_modules`. `proc` holds the lines of `/proc/modules` as
successive `fgets` calls deliver them, `none` when `fopen` fails. -/
def scan_loaded_modules (proc : Option (List (List Nat))) (modules : List module) :
    Except Fault (Int × List module) :=
  match proc with
  | none => .ok (-1, modules)
  | some lines =>
    match scan_loaded_lines lines modules with
    | .error e => .error e
    | .ok modules1 => .ok (0, modules1)

/-- The `for` loop of `scan_module_folder` over the paths that `glob` matched. A NULL
result of `get_module_info` is dereferenced by `m->name = strdup(name)`. -/
def scan_module_folder_loop (L : ElfLayout) (fs : Files) :
    List (List Nat) → List module → Except Fault (List module)
  | [], modules => .ok modules
  | path :: paths, modules =>
    match get_module_name path with
    | .error e => .error e
    | .ok name =>
      match find_module modules name with
      | some _ => scan_module_folder_loop L fs paths modules
      | none =>
        match get_module_info L fs path with
        | .error e => .error e
        | .ok none => .error .null_deref
        | .ok (some (m, _)) =>
          scan_module_folder_loop L fs paths (modules ++ [{ m with name := name }])

/-- The function `scan_module_folder`. `paths` is the vector `gl_pathv` that `glob`
fills, empty when it matches nothing; `glob` returns no negative value. -/
def scan_module_folder (L : ElfLayout) (fs : Files) (paths : List (List Nat))
    (modules : List module) : Except Fault (Int × List module) :=
  match scan_module_folder_loop L fs paths modules with
  | .error e => .error e
  | .ok modules1 => .ok (0, modules1)

/-- One of the two operations that populate the registry, with its input. -/
inductive ScanOp where
  | loaded_modules (proc : Option (List (List Nat)))
  | module_folder (paths : List (List Nat))

/-- A sequence of population operations, run in order on a registry. -/
def run_scans (L : ElfLayout) (fs : Files) : List ScanOp → List module →
    Except Fault (List module)
  | [], modules => .ok modules
  | ScanOp.loaded_modules proc :: ops, modules =>
    match scan_loaded_modules proc modules with
    | .error e => .error e
    | .ok r => run_scans L fs ops r.2
  | ScanOp.module_folder paths :: ops, modules =>
    match scan_module_folder L fs paths modules with
    | .error e => .error e
    | .ok r => run_scans L fs ops r.2

/-- No two records of the registry have the same name. -/
def names_unique (modules : List module) : Prop :=
  (modules.map (fun m => cstr m.name)).Nodup

/-- Whether an operation is a directory scan. -/
def ScanOp.is_folder : ScanOp → Bool
  | ScanOp.loaded_modules _ => false
  | ScanOp.module_folder _ => true

/-! ## Predicates used to state the properties of `load_depmod` -/

/-- Registries on which `load_depmod` dereferences no NULL `depends` pointer: every
record in state `PROBE` has a `depends` buffer. -/
def probe_deps_present (modules : List module) : Prop :=
  ∀ m ∈ modules, m.state = State.PROBE → m.depends ≠ none

/-- The three ways the loop body of `load_depmod` treats the record at position `i`:
it is not in state `PROBE` (nothing changes), its dependencies are not available
(`todo` is incremented), or its insertion is attempted. -/
inductive Step (i : Nat) (s : Run) : Run → Prop where
  | skip : state_at s.modules i ≠ some State.PROBE → Step i s s
  | todo (m m1 : module) : s.modules[i]? = some m → m.state = State.PROBE →
      m1.state = State.PROBE → m1.name = m.name → m1.depends ≠ none →
      Step i s ⟨s.modules.set i m1, s.loaded, s.todo + 1, s.log⟩
  | attempt (m m2 : module) (ret : Int) : s.modules[i]? = some m → m.state = State.PROBE →
      m2.state = (if ret = 0 then State.LOADED else State.FAILED) →
      Step i s ⟨s.modules.set i m2, if ret = 0 then s.loaded + 1 else s.loaded, s.todo,
        s.log ++ [⟨i, s.modules, ret, s.modules.set i m2⟩]⟩

/-- The state a record is left in by an insertion that returned `ret`. -/
def state_after (ret : Int) : State := if ret = 0 then State.LOADED else State.FAILED

/-- Legal history of a run of `load_depmod` that started on `modules0`: a record either
has its initial state and was never attempted, or it started in `PROBE` and was
attempted exactly once, which decided its state; every attempt was made on a record in
`PROBE` and changed the state of that record only. -/
def legal_history (modules0 modules : List module) (log : List Attempt) : Prop :=
  modules.length = modules0.length ∧
  (∀ i, (state_at modules i = state_at modules0 i ∧ ∀ a ∈ log, a.idx ≠ i) ∨
        (state_at modules0 i = some State.PROBE ∧
          ∃ a, log.filter (fun a => a.idx = i) = [a] ∧
            state_at modules i = some (state_after a.ret))) ∧
  (∀ a ∈ log, state_at a.before a.idx = some State.PROBE ∧
      state_at a.after a.idx = some (state_after a.ret) ∧
      ∀ j, j ≠ a.idx → state_at a.after j = state_at a.before j)

/-! ## Concrete worlds and registries -/

/-- A world in which every probed file exists and every insertion succeeds. -/
def world_ok : World := ⟨str "6.1", fun _ _ => true, fun _ _ => true⟩

/-- A world in which every probed file exists and the kernel rejects every module. -/
def world_reject : World := ⟨str "6.1", fun _ _ => true, fun _ _ => false⟩

/-- A record with the given name, `depends` string and state. -/
def mk_module (name depends : String) (state : State) : module :=
  ⟨str name, some (str depends), 0, 0, state⟩

/-- Pieces of a string split at every `,`. -/
def split_commas : List Nat → List (List Nat)
  | [] => [[]]
  | c :: cs =>
    if c = 44 then [] :: split_commas cs
    else
      match split_commas cs with
      | [] => [[c]]
      | p :: ps => (c :: p) :: ps

/-- Specification side: the dependency names a `depends` string lists. The string is
split at `,`; the sentinel `-` and empty pieces list nothing. -/
def dependency_list (depends : List Nat) : List (List Nat) :=
  if cstr depends = [45] then []
  else (split_commas (cstr depends)).filter (fun n => n ≠ [])

/-- Specification side: every dependency name listed by the record at position `i`
names a record of the registry in state `LOADED`. -/
def deps_loaded (modules : List module) (i : Nat) : Bool :=
  match modules[i]? with
  | none => true
  | some m =>
    match m.depends with
    | none => true
    | some d =>
      (dependency_list d).all fun n =>
        match find_module modules n with
        | none => false
        | some j => state_at modules j = some State.LOADED

/-- Names of the records in the order in which their insertion was attempted. -/
def attempted_names (r : Result) : List (List Nat) :=
  r.log.map fun a => ((a.before[a.idx]?).map (fun m => cstr m.name)).getD []

/-! ## Concrete object images -/

/-- Little-endian bytes of a value in a field of the given width. -/
def le_bytes : Nat → Nat → List Nat
  | 0, _ => []
  | w + 1, v => v % 256 :: le_bytes w (v / 256)

/-- An `Elf64_Shdr` with the given `sh_name`, `sh_offset` and `sh_size`, other fields 0. -/
def elf64_shdr (sh_name sh_offset sh_size : Nat) : List Nat :=
  le_bytes 4 sh_name ++ List.replicate 20 0 ++ le_bytes 8 sh_offset ++ le_bytes 8 sh_size ++
    List.replicate 24 0

/-- A 64-bit object image with three sections: `.shstrtab` (the section name string
table, at 256), `.modinfo` (at 282, contents `modinfo`, declared size `modinfo_size`)
and `.data` (contents `data`, directly behind). The section header table is at 64. -/
def elf64_image (modinfo : List Nat) (modinfo_size : Nat) (data : List Nat) : List Nat :=
  List.replicate 40 0 ++ le_bytes 8 64 ++ List.replicate 12 0 ++ le_bytes 2 3 ++ le_bytes 2 0 ++
    elf64_shdr 1 256 26 ++
    elf64_shdr 11 282 modinfo_size ++
    elf64_shdr 20 (282 + modinfo.length) data.length ++
    str "\x00.shstrtab\x00.modinfo\x00.data\x00" ++
    modinfo ++ data

/-- A file system holding one mappable file. -/
def one_file (path : String) (image : List Nat) : Files :=
  ⟨fun p => if p = str path then some image else none⟩

/-- The `.modinfo` contents `depends=foo,bar\0license=GPL\0\0author=x\0` (38 bytes). -/
def modinfo_sample : List Nat :=
  str "depends=foo,bar\x00license=GPL\x00\x00author=x\x00"

/-- An image whose `.modinfo` section is followed by a `.data` section that starts with
two NUL bytes and holds no `=`. -/
def image_plain : List Nat := elf64_image modinfo_sample 38 (str "\x00\x00\x01\x02\x00")

/-- An image whose `.modinfo` section is followed by a `.data` section that starts with
the string `depends=zzz`. -/
def image_trailing : List Nat := elf64_image modinfo_sample 38 (str "depends=zzz\x00")

/-- An image whose `.modinfo` section header declares a size of `2 ^ 32 + 16`. -/
def image_huge : List Nat := elf64_image (str "depends=foo,bar\x00") (2 ^ 32 + 16) []

/-- A line of `/proc/modules` for a module `a` without dependencies. -/
def proc_line_a : List Nat := str "a 16384 0 - Live 0x0000000000000000\n"

/-- The image of a module whose `.modinfo` section is `depends=b`. -/
def image_a : List Nat := elf64_image (str "depends=b\x00") 10 (str "\x00\x00\x01\x02\x00")

/-- The image of a module whose `.modinfo` section is `depends=` (no dependencies). -/
def image_b : List Nat := elf64_image (str "depends=\x00") 9 (str "\x00\x00\x01\x02\x00")

/-- A module directory that holds `a.ko` and `b.ko`. -/
def folder_a_b : Files :=
  ⟨fun p =>
    if p = str "/lib/modules/6.1/a.ko" then some image_a
    else if p = str "/lib/modules/6.1/b.ko" then some image_b
    else none⟩

/-- The registry that `depmod a` hands to `load_depmod` for the folder `folder_a_b`:
`a` (depends `b`) in `PROBE`, `b` (no dependencies) in `SCANNED`. -/
def registry_depmod_a : List module :=
  [⟨str "a", some (str "b"), 297, 0, State.PROBE⟩,
   ⟨str "b", some (str ""), 296, 0, State.SCANNED⟩]

/-! ## Specification side of the `.modinfo` parser -/

/-- Specification side: the bytes of a `.modinfo` section made of the given entries
`(padding, key, value)`: each entry is preceded by `padding` NUL bytes and stored as
`key=value` with a terminating NUL; `tail` NUL bytes follow the last entry. -/
def section_bytes : List (Nat × List Nat × List Nat) → Nat → List Nat
  | [], tail => List.replicate tail 0
  | (pad, key, value) :: es, tail =>
    List.replicate pad 0 ++ (key ++ 61 :: value) ++ 0 :: section_bytes es tail

/-- Specification side: entries as the section format allows them, keys without NUL
and `=`, values without NUL. -/
def entries_wf (es : List (Nat × List Nat × List Nat)) : Prop :=
  ∀ e ∈ es, 0 ∉ e.2.1 ∧ 61 ∉ e.2.1 ∧ 0 ∉ e.2.2

/-- Specification side: the value of the last `depends` entry, `d` when there is none. -/
def depends_of (d : Option (List Nat)) : List (Nat × List Nat × List Nat) →
    Option (List Nat)
  | [] => d
  | (_, key, value) :: es => depends_of (if key = str "depends" then some value else d) es

/-- Bytes behind a section that end the parsing loop without a further entry: NUL
bytes, then a non-empty string without `=`, then its NUL. -/
def benign_tail (post : List Nat) : Prop :=
  ∃ (j : Nat) (junk rest : List Nat), post = List.replicate j 0 ++ junk ++ 0 :: rest ∧
    junk ≠ [] ∧ 0 ∉ junk ∧ 61 ∉ junk

/-! ## Further concrete worlds, registries and images -/

/-- A file system given by a list of paths with their images. -/
def files_of : List (String × List Nat) → Files
  | l => ⟨fun p => (l.find? (fun f => str f.1 = p)).map (·.2)⟩

/-- A 64-bit object image with the two sections `.shstrtab` (at 192) and `.data` (at
209, contents `data`) and no `.modinfo` section. The section header table is at 64. -/
def elf64_image_no_modinfo (data : List Nat) : List Nat :=
  List.replicate 40 0 ++ le_bytes 8 64 ++ List.replicate 12 0 ++ le_bytes 2 2 ++ le_bytes 2 0 ++
    elf64_shdr 1 192 17 ++
    elf64_shdr 11 209 data.length ++
    str "\x00.shstrtab\x00.data\x00" ++
    data

/-- The image of a file without `.modinfo` section. -/
def image_no_modinfo : List Nat := elf64_image_no_modinfo (str "\x00\x00\x01\x02\x00")

/-- The image of a module whose `.modinfo` section is `license=GPL`, without a
`depends` entry. -/
def image_no_depends : List Nat :=
  elf64_image (str "license=GPL\x00") 12 (str "\x00\x00\x01\x02\x00")

/-- A module directory that holds `bad.ko` (no `.modinfo`), `a.ko` (`depends=b`) and
`nodep.ko` (no `depends` entry). -/
def folder_bad : Files :=
  files_of [("/lib/modules/6.1/bad.ko", image_no_modinfo),
    ("/lib/modules/6.1/a.ko", image_a),
    ("/lib/modules/6.1/nodep.ko", image_no_depends)]

/-- An image whose `.modinfo` section is `depends=a\0dep` (13 bytes): its last entry
has neither `=` nor a terminating NUL inside the section. The `.data` section behind
it starts with `ends=zzz`. -/
def image_truncated : List Nat :=
  elf64_image (str "depends=a\x00dep") 13 (str "ends=zzz\x00")

/-- The same image as `image_truncated` up to the end of the `.modinfo` section, with a
`.data` section of the same size that starts with NUL bytes. -/
def image_truncated_nul : List Nat :=
  elf64_image (str "depends=a\x00dep") 13 (str "\x00\x00\x01\x02\x00\x00\x00\x00\x00")

/-- A world in which the module files on disk are `a-b.ko` and `c.ko` in the module
directory of the running kernel, and every insertion succeeds. -/
def world_dashed : World :=
  ⟨str "6.1",
   fun _ p => p = str "/lib/modules/6.1/a-b.ko" || p = str "/lib/modules/6.1/c.ko",
   fun _ _ => true⟩

/-- A registry with the record `a_b` (no dependencies) and the record `c` that depends
on `a_b`, both in `PROBE`. -/
def registry_dashed : List module :=
  [mk_module "a_b" "-" State.PROBE, mk_module "c" "a_b," State.PROBE]

/-- Specification side: the name is the name of a record in state `LOADED`. -/
def loaded_name (modules : List module) (name : List Nat) : Prop :=
  ∃ j, find_module modules name = some j ∧ state_at modules j = some State.LOADED

/-! ## Lemmas on strings -/

theorem cstr_length_le (l : List Nat) : (cstr l).length ≤ l.length := by
  induction l with
  | nil => simp [cstr]
  | cons b bs ih =>
    unfold cstr
    split
    · simp
    · simp only [List.length_cons]; omega

theorem strstr_lt (hay : List Nat) (c k : Nat) (h : strstr hay [c] = some k) :
    k < hay.length := by
  induction hay generalizing k with
  | nil => simp [strstr] at h
  | cons b bs ih =>
    unfold strstr at h
    split at h
    · simp at h; subst h; simp
    · cases hs : strstr bs [c] with
      | none => simp [hs] at h
      | some k1 =>
        simp [hs] at h
        subst h
        have := ih k1 hs
        simp only [List.length_cons]; omega

/-! ## Lemmas on the dependency check -/

theorem deps_available_loop_ok (modules : List module) :
    ∀ (fuel : Nat) (buf : List Nat) (deps : Nat), deps ≤ buf.length →
      buf.length + 1 ≤ fuel + deps →
      ∃ r buf1, deps_available_loop modules fuel buf deps = .ok (r, buf1) := by
  intro fuel
  induction fuel with
  | zero => intro buf deps h1 h2; omega
  | succ fuel ih =>
    intro buf deps h1 h2
    unfold deps_available_loop
    split
    · exact ⟨_, _, rfl⟩
    · rename_i hne
      split
      · exact ⟨_, _, rfl⟩
      · rename_i k hk
        have hk1 := strstr_lt _ _ _ hk
        have hk2 := cstr_length_le (buf.drop deps)
        simp only [List.length_drop] at hk2
        dsimp only
        split
        · exact ⟨_, _, rfl⟩
        · split
          · exact ⟨_, _, rfl⟩
          · apply ih
            · simp only [List.length_set]; omega
            · simp only [List.length_set]; omega

theorem deps_available_ok (modules : List module) (m : module) (h : m.depends ≠ none) :
    ∃ r m1, deps_available modules m = .ok (r, m1) ∧ m1.name = m.name ∧
      m1.state = m.state ∧ m1.depends ≠ none := by
  unfold deps_available
  cases hd : m.depends with
  | none => exact absurd hd h
  | some buf =>
    dsimp only
    split
    · exact ⟨_, _, rfl, rfl, rfl, by simp [hd]⟩
    · obtain ⟨r, buf1, hl⟩ := deps_available_loop_ok modules (buf.length + 1) buf 0
        (Nat.zero_le _) (by omega)
      rw [hl]
      exact ⟨_, _, rfl, rfl, rfl, by simp⟩

/-! ## Lemmas on one visit -/

theorem visit_step (w : World) (i : Nat) (s : Run) (hwf : probe_deps_present s.modules) :
    ∃ s1, visit w i s = .ok s1 ∧ Step i s s1 := by
  unfold visit
  cases hm : s.modules[i]? with
  | none =>
    refine ⟨s, rfl, Step.skip ?_⟩
    simp [state_at, hm]
  | some m =>
    dsimp only
    by_cases hp : m.state = State.PROBE
    · have hmem : m ∈ s.modules := List.getElem?_mem hm
      obtain ⟨r, m1, hd, hn, hs, hdep⟩ := deps_available_ok s.modules m (hwf m hmem hp)
      rw [if_pos hp, hd]
      dsimp only
      by_cases hr : r = 0
      · rw [if_pos hr]
        exact ⟨_, rfl, Step.attempt m _ _ hm hp rfl⟩
      · rw [if_neg hr]
        exact ⟨_, rfl, Step.todo m m1 hm hp (hs.trans hp) hn hdep⟩
    · rw [if_neg hp]
      refine ⟨s, rfl, Step.skip ?_⟩
      simp [state_at, hm, hp]


/-! ## Lemmas on states and counts -/

theorem state_at_set_ne (l : List module) (i j : Nat) (x : module) (h : j ≠ i) :
    state_at (l.set i x) j = state_at l j := by
  unfold state_at
  rw [List.getElem?_set_ne (Ne.symm h)]

theorem state_at_set_eq (l : List module) (i : Nat) (x m : module) (h : l[i]? = some m) :
    state_at (l.set i x) i = some x.state := by
  unfold state_at
  have hi : i < l.length := by
    rcases Nat.lt_or_ge i l.length with h1 | h1
    · exact h1
    · rw [List.getElem?_eq_none h1] at h; cases h
  rw [List.getElem?_set_self hi]
  rfl

theorem probe_count_take_succ (l : List module) (i : Nat) :
    probe_count (l.take (i + 1)) =
      probe_count (l.take i) + (if state_at l i = some State.PROBE then 1 else 0) := by
  induction l generalizing i with
  | nil => simp [probe_count, state_at]
  | cons m ms ih =>
    cases i with
    | zero => simp [probe_count, state_at]
    | succ i =>
      simp only [List.take_succ_cons, probe_count]
      rw [ih i]
      simp only [state_at, List.getElem?_cons_succ]
      omega

theorem probe_count_set (l : List module) (i : Nat) (x m : module) (h : l[i]? = some m) :
    probe_count (l.set i x) + (if m.state = State.PROBE then 1 else 0) =
      probe_count l + (if x.state = State.PROBE then 1 else 0) := by
  induction l generalizing i with
  | nil => simp at h
  | cons a as ih =>
    cases i with
    | zero =>
      simp only [List.getElem?_cons_zero, Option.some.injEq] at h
      subst h
      simp only [List.set_cons_zero, probe_count]
      omega
    | succ i =>
      simp only [List.getElem?_cons_succ] at h
      have := ih i h
      simp only [List.set_cons_succ, probe_count]
      omega

theorem take_set_self (l : List module) (i : Nat) (x : module) :
    (l.set i x).take i = l.take i := by
  induction l generalizing i with
  | nil => simp
  | cons a as ih =>
    cases i with
    | zero => simp
    | succ i => simp [ih i]

theorem probe_count_take_length (l : List module) (n : Nat) (h : l.length ≤ n) :
    probe_count (l.take n) = probe_count l := by
  rw [List.take_of_length_le h]

/-! ## Lemmas on one pass -/

theorem step_probe_deps_present (i : Nat) (s s1 : Run) (h : Step i s s1)
    (hwf : probe_deps_present s.modules) : probe_deps_present s1.modules := by
  cases h with
  | skip _ => exact hwf
  | todo m m1 hm hp hp1 hn hd =>
    intro x hx hxp
    rcases List.mem_or_eq_of_mem_set hx with h1 | h1
    · exact hwf x h1 hxp
    · subst h1; exact hd
  | attempt m m2 ret hm hp h2 =>
    intro x hx hxp
    rcases List.mem_or_eq_of_mem_set hx with h1 | h1
    · exact hwf x h1 hxp
    · subst h1
      rw [h2] at hxp
      split at hxp <;> cases hxp

theorem step_length (i : Nat) (s s1 : Run) (h : Step i s s1) :
    s1.modules.length = s.modules.length := by
  cases h <;> simp

theorem step_todo (i : Nat) (s s1 : Run) (h : Step i s s1)
    (ht : s.todo = probe_count (s.modules.take i)) :
    s1.todo = probe_count (s1.modules.take (i + 1)) := by
  cases h with
  | skip hs =>
    rw [probe_count_take_succ, if_neg hs, ht]; simp
  | todo m m1 hm hp hp1 hn hd =>
    simp only
    rw [probe_count_take_succ, take_set_self, state_at_set_eq _ _ _ _ hm, hp1, ht]
    simp
  | attempt m m2 ret hm hp h2 =>
    simp only
    rw [probe_count_take_succ, take_set_self, state_at_set_eq _ _ _ _ hm, h2, ht]
    split <;> simp

theorem step_progress (i : Nat) (s s1 : Run) (P : Int) (h : Step i s s1)
    (hl : 0 ≤ s.loaded) (hP : (probe_count s.modules : Int) + s.loaded ≤ P) :
    0 ≤ s1.loaded ∧ (probe_count s1.modules : Int) + s1.loaded ≤ P := by
  cases h with
  | skip hs => exact ⟨hl, hP⟩
  | todo m m1 hm hp hp1 hn hd =>
    have := probe_count_set s.modules i m1 m hm
    rw [if_pos hp, if_pos hp1] at this
    simp only
    omega
  | attempt m m2 ret hm hp h2 =>
    have := probe_count_set s.modules i m2 m hm
    rw [if_pos hp, h2] at this
    simp only
    by_cases hr : ret = 0
    · simp only [hr, if_true] at this ⊢
      simp at this
      omega
    · simp only [hr, if_false] at this ⊢
      simp at this
      omega

/-- Invariants of `pass_from`: any property `K` of registry and log that every step
preserves, the length of the registry, and the meaning of the two counters. -/
theorem pass_from_inv (w : World) (K : List module → List Attempt → Prop)
    (hK : ∀ i s s1, probe_deps_present s.modules → K s.modules s.log → Step i s s1 →
      K s1.modules s1.log) (P : Int) :
    ∀ (n i : Nat) (s : Run), probe_deps_present s.modules → K s.modules s.log →
      s.todo = probe_count (s.modules.take i) → 0 ≤ s.loaded →
      (probe_count s.modules : Int) + s.loaded ≤ P →
      ∃ s1, pass_from w n i s = .ok s1 ∧ probe_deps_present s1.modules ∧
        K s1.modules s1.log ∧ s1.modules.length = s.modules.length ∧
        s1.todo = probe_count (s1.modules.take (i + n)) ∧ 0 ≤ s1.loaded ∧
        (probe_count s1.modules : Int) + s1.loaded ≤ P := by
  intro n
  induction n with
  | zero =>
    intro i s hwf hk ht hl hP
    exact ⟨s, rfl, hwf, hk, rfl, ht, hl, hP⟩
  | succ n ih =>
    intro i s hwf hk ht hl hP
    obtain ⟨s1, hv, hst⟩ := visit_step w i s hwf
    have hp := step_progress i s s1 P hst hl hP
    obtain ⟨s2, h2, hwf2, hk2, hlen2, ht2, hl2, hP2⟩ :=
      ih (i + 1) s1 (step_probe_deps_present i s s1 hst hwf) (hK i s s1 hwf hk hst)
        (step_todo i s s1 hst ht) hp.1 hp.2
    refine ⟨s2, ?_, hwf2, hk2, ?_, ?_, hl2, hP2⟩
    · unfold pass_from
      rw [hv]
      exact h2
    · rw [hlen2, step_length i s s1 hst]
    · rw [ht2, show i + 1 + n = i + (n + 1) by omega]

theorem pass_inv (w : World) (K : List module → List Attempt → Prop)
    (hK : ∀ i s s1, probe_deps_present s.modules → K s.modules s.log → Step i s s1 →
      K s1.modules s1.log)
    (modules : List module) (log : List Attempt) (hwf : probe_deps_present modules)
    (hk : K modules log) :
    ∃ s1, pass w modules log = .ok s1 ∧ probe_deps_present s1.modules ∧
      K s1.modules s1.log ∧ s1.todo = probe_count s1.modules ∧ 0 ≤ s1.loaded ∧
      (probe_count s1.modules : Int) + s1.loaded ≤ probe_count modules := by
  obtain ⟨s1, h1, hwf1, hk1, hlen, ht, hl, hP⟩ :=
    pass_from_inv w K hK (probe_count modules) modules.length 0 ⟨modules, 0, 0, log⟩
      hwf hk (by simp [probe_count]) (le_refl _) (by simp)
  refine ⟨s1, h1, hwf1, hk1, ?_, hl, hP⟩
  rw [ht, probe_count_take_length]
  simp at hlen
  omega

/-- Master invariant of the `do`/`while` loop: with more fuel than records in state
`PROBE` the loop returns, the result satisfies every step-invariant `K`, the value
returned is minus the number of records left in `PROBE`, and the number of passes is
at most one more than the number of `PROBE` records at entry. -/
theorem load_depmod_loop_inv (w : World) (K : List module → List Attempt → Prop)
    (hK : ∀ i s s1, probe_deps_present s.modules → K s.modules s.log → Step i s s1 →
      K s1.modules s1.log) :
    ∀ (fuel : Nat) (modules : List module) (log : List Attempt) (p : Nat),
      probe_deps_present modules → probe_count modules < fuel → K modules log →
      ∃ r, load_depmod_loop w fuel modules log p = .ok r ∧ K r.modules r.log ∧
        r.ret = -(probe_count r.modules : Int) ∧ r.passes ≤ p + probe_count modules + 1 := by
  intro fuel
  induction fuel with
  | zero => intro modules log p _ h; omega
  | succ fuel ih =>
    intro modules log p hwf hf hk
    obtain ⟨s, hs, hwf1, hk1, ht, hl, hP⟩ := pass_inv w K hK modules log hwf hk
    unfold load_depmod_loop
    rw [hs]
    dsimp only
    by_cases h0 : s.loaded = 0
    · rw [if_neg (by simpa using h0)]
      refine ⟨_, rfl, hk1, ?_, ?_⟩
      · simp [ht]
      · simp only; omega
    · rw [if_pos h0]
      have hlt : probe_count s.modules < fuel := by omega
      obtain ⟨r, hr, hkr, hret, hpass⟩ := ih s.modules s.log (p + 1) hwf1 hlt hk1
      refine ⟨r, hr, hkr, hret, ?_⟩
      omega

/-! ## Legal histories -/

theorem state_at_of_get (l : List module) (i : Nat) (m : module) (h : l[i]? = some m) :
    state_at l i = some m.state := by
  simp [state_at, h]

theorem state_at_set_same (l : List module) (i j : Nat) (x m : module) (h : l[i]? = some m)
    (hs : x.state = m.state) : state_at (l.set i x) j = state_at l j := by
  by_cases hj : j = i
  · subst hj
    rw [state_at_set_eq l j x m h, state_at_of_get l j m h, hs]
  · exact state_at_set_ne l i j x hj

theorem filter_idx_nil (log : List Attempt) (i : Nat) (h : ∀ a ∈ log, a.idx ≠ i) :
    log.filter (fun a => a.idx = i) = [] := by
  rw [List.filter_eq_nil_iff]
  intro a ha
  simpa using h a ha

theorem step_legal_history (modules0 : List module) (i : Nat) (s s1 : Run)
    (hk : legal_history modules0 s.modules s.log) (h : Step i s s1) :
    legal_history modules0 s1.modules s1.log := by
  obtain ⟨hlen, hrec, hev⟩ := hk
  cases h with
  | skip _ => exact ⟨hlen, hrec, hev⟩
  | todo m m1 hm hp hp1 hn hd =>
    refine ⟨by simpa using hlen, ?_, hev⟩
    intro j
    have hsame := state_at_set_same s.modules i j m1 m hm (hp1.trans hp.symm)
    simp only
    rw [hsame]
    exact hrec j
  | attempt m m2 ret hm hp h2 =>
    have hcur : state_at s.modules i = some State.PROBE := by
      rw [state_at_of_get _ _ _ hm, hp]
    have hnew : state_at (s.modules.set i m2) i = some (state_after ret) := by
      rw [state_at_set_eq _ _ _ _ hm, h2]; rfl
    refine ⟨by simpa using hlen, ?_, ?_⟩
    · intro j
      simp only
      by_cases hj : j = i
      · subst hj
        right
        rcases hrec j with ⟨h1, h3⟩ | ⟨h1, a, ha, h3⟩
        · refine ⟨by rw [← h1, hcur], ⟨j, s.modules, ret, s.modules.set j m2⟩, ?_, hnew⟩
          rw [List.filter_append, filter_idx_nil _ _ h3]
          simp
        · rw [hcur] at h3
          unfold state_after at h3
          split at h3 <;> cases h3
      · rw [state_at_set_ne _ _ _ _ hj]
        rcases hrec j with ⟨h1, h3⟩ | ⟨h1, a, ha, h3⟩
        · left
          refine ⟨h1, ?_⟩
          intro a ha
          rcases List.mem_append.mp ha with h4 | h4
          · exact h3 a h4
          · simp only [List.mem_singleton] at h4
            subst h4
            exact fun h5 => hj h5.symm
        · right
          refine ⟨h1, a, ?_, h3⟩
          rw [List.filter_append, ha]
          have : ¬ i = j := fun h5 => hj h5.symm
          simp [this]
    · intro a ha
      simp only at ha
      rcases List.mem_append.mp ha with h4 | h4
      · exact hev a h4
      · simp only [List.mem_singleton] at h4
        subst h4
        refine ⟨hcur, hnew, ?_⟩
        intro j hj
        exact state_at_set_ne _ _ _ _ hj

theorem legal_history_start (modules : List module) : legal_history modules modules [] := by
  refine ⟨rfl, ?_, ?_⟩
  · intro i; left; exact ⟨rfl, by simp⟩
  · simp

/-- Claim C4. For every registry whose `PROBE` records have a `depends` buffer, every
world and more fuel than `PROBE` records, `load_depmod` returns, and the value it
returns is minus the number of records in state `PROBE` in the registry it leaves. -/
theorem load_depmod_unresolved_count (w : World) (fuel : Nat) (modules : List module)
    (hwf : probe_deps_present modules) (hfuel : probe_count modules < fuel) :
    ∃ r, load_depmod w fuel modules = .ok r ∧ r.ret = -(probe_count r.modules : Int) := by
  obtain ⟨r, hr, _, hret, _⟩ :=
    load_depmod_loop_inv w (fun _ _ => True) (fun _ _ _ _ _ _ => trivial) fuel modules [] 0
      hwf hfuel trivial
  exact ⟨r, hr, hret⟩

/-- Claim C5 (amended). For every registry with `N` records in state `PROBE` (each with
a `depends` buffer), every world and fuel above `N`, `load_depmod` returns after at
most `N + 1` iterations of its `do`/`while` loop. -/
theorem load_depmod_passes_le (w : World) (fuel : Nat) (modules : List module)
    (hwf : probe_deps_present modules) (hfuel : probe_count modules < fuel) :
    ∃ r, load_depmod w fuel modules = .ok r ∧ r.passes ≤ probe_count modules + 1 := by
  obtain ⟨r, hr, _, _, hp⟩ :=
    load_depmod_loop_inv w (fun _ _ => True) (fun _ _ _ _ _ _ => trivial) fuel modules [] 0
      hwf hfuel trivial
  exact ⟨r, hr, by omega⟩

/-- Claim C6. For every registry whose `PROBE` records have a `depends` buffer, every
world and enough fuel, `load_depmod` returns a registry of the same length in which
each record either kept its state and was never attempted, or started in `PROBE`, was
attempted exactly once and is `LOADED` when that insertion returned `0` and `FAILED`
otherwise; every attempt is made on a record that is in `PROBE` at that moment and
leaves the state of every other record as it was. -/
theorem load_depmod_legal_transitions (w : World) (fuel : Nat) (modules : List module)
    (hwf : probe_deps_present modules) (hfuel : probe_count modules < fuel) :
    ∃ r, load_depmod w fuel modules = .ok r ∧
      r.modules.length = modules.length ∧
      (∀ i, (state_at r.modules i = state_at modules i ∧ ∀ a ∈ r.log, a.idx ≠ i) ∨
        (state_at modules i = some State.PROBE ∧
          ∃ a, r.log.filter (fun a => a.idx = i) = [a] ∧
            state_at r.modules i = some (if a.ret = 0 then State.LOADED else State.FAILED))) ∧
      (∀ a ∈ r.log, state_at a.before a.idx = some State.PROBE ∧
        state_at a.after a.idx = some (if a.ret = 0 then State.LOADED else State.FAILED) ∧
        ∀ j, j ≠ a.idx → state_at a.after j = state_at a.before j) := by
  obtain ⟨r, hr, hk, _, _⟩ :=
    load_depmod_loop_inv w (legal_history modules)
      (fun i s s1 _ hk hs => step_legal_history modules i s s1 hk hs) fuel modules [] 0
      hwf hfuel (legal_history_start modules)
  exact ⟨r, hr, hk⟩

/-! ## Concrete runs -/

theorem load_depmod_loop_fuel_succ (w : World) :
    ∀ (fuel : Nat) (modules : List module) (log : List Attempt) (p : Nat) (r : Result),
      load_depmod_loop w fuel modules log p = .ok r →
      load_depmod_loop w (fuel + 1) modules log p = .ok r := by
  intro fuel
  induction fuel with
  | zero => intro modules log p r h; simp [load_depmod_loop] at h
  | succ fuel ih =>
    intro modules log p r h
    unfold load_depmod_loop at h ⊢
    cases hp : pass w modules log with
    | error e => rw [hp] at h; cases h
    | ok s =>
      rw [hp] at h
      dsimp only at h ⊢
      by_cases h0 : s.loaded ≠ 0
      · rw [if_pos h0] at h ⊢
        exact ih _ _ _ _ h
      · rw [if_neg h0] at h ⊢
        exact h

/-- Fuel is a device of the model only: once `load_depmod` returns with some fuel, it
returns the same result with any larger fuel. -/
theorem load_depmod_fuel_mono (w : World) (fuel k : Nat) (modules : List module)
    (r : Result) (h : load_depmod w fuel modules = .ok r) :
    load_depmod w (fuel + k) modules = .ok r := by
  induction k with
  | zero => exact h
  | succ k ih => exact load_depmod_loop_fuel_succ w (fuel + k) modules [] 0 r ih

/-- Claim C1 (failing input). Registry `registry_depmod_a`: `a` (depends `b`, `PROBE`)
and `b` (no dependencies, `SCANNED`). `load_depmod` attempts the insertion of `a` in its
first pass although `b`, the one dependency `a` lists, is not `LOADED`. -/
theorem load_depmod_inserts_before_dependency :
    ∃ r, load_depmod world_ok 2 registry_depmod_a = .ok r ∧
      r.log.map (fun a => (a.idx, a.before, a.ret)) = [(0, registry_depmod_a, 0)] ∧
      dependency_list (str "b") = [str "b"] ∧
      find_module registry_depmod_a (str "b") = some 1 ∧
      state_at registry_depmod_a 1 = some State.SCANNED ∧
      r.log.all (fun a => deps_loaded a.before a.idx) = false :=
  ⟨_, rfl, by decide, by decide, by decide, by decide, by decide⟩

/-- Claim C2 (failing input). With every insertion succeeding, the chain `A` (depends
on `B`), `B` (depends on `C`), `C` (no dependencies), all `PROBE` and listed in the
order `A`, `B`, `C`, is inserted in the order `A`, `B`, `C` when the `depends` strings
are those of `.modinfo` (`B`, `C`, empty), and in the order `C`, `A`, `B` when they are
those of the live list (`B,`, `C,`, `-`); neither is `C`, `B`, `A`. -/
theorem load_depmod_chain_order :
    (∃ r, load_depmod world_ok 4 [mk_module "A" "B" State.PROBE,
        mk_module "B" "C" State.PROBE, mk_module "C" "" State.PROBE] = .ok r ∧
      attempted_names r = [str "A", str "B", str "C"]) ∧
    (∃ r, load_depmod world_ok 4 [mk_module "A" "B," State.PROBE,
        mk_module "B" "C," State.PROBE, mk_module "C" "-" State.PROBE] = .ok r ∧
      attempted_names r = [str "C", str "A", str "B"]) :=
  ⟨⟨_, rfl, by decide⟩, ⟨_, rfl, by decide⟩⟩

/-- Claim C3 (failing input). A single `PROBE` record `A` whose `depends` string `zzz`
names no record: `load_depmod` attempts its insertion, leaves it `LOADED` and returns
`0`. With the string `zzz,` and a second record `C` that loads in the first pass, the
second pass attempts `A` as well. -/
theorem load_depmod_missing_dependency_inserted :
    (∃ r, load_depmod world_ok 2 [mk_module "A" "zzz" State.PROBE] = .ok r ∧
      find_module [mk_module "A" "zzz" State.PROBE] (str "zzz") = none ∧
      attempted_names r = [str "A"] ∧ state_at r.modules 0 = some State.LOADED ∧
      r.ret = 0) ∧
    (∃ r, load_depmod world_ok 3
        [mk_module "C" "-" State.PROBE, mk_module "A" "zzz," State.PROBE] = .ok r ∧
      attempted_names r = [str "C", str "A"] ∧ state_at r.modules 1 = some State.LOADED ∧
      r.ret = 0) :=
  ⟨⟨_, rfl, by decide, by decide, by decide, by decide⟩,
   ⟨_, rfl, by decide, by decide, by decide⟩⟩

theorem load_depmod_unresolved_count_witness :
    probe_deps_present [mk_module "C" "-" State.PROBE, mk_module "A" "zzz," State.PROBE,
        mk_module "D" "A," State.PROBE] ∧
      ∃ r, load_depmod world_ok 4 [mk_module "C" "-" State.PROBE,
          mk_module "A" "zzz," State.PROBE, mk_module "D" "A," State.PROBE] = .ok r ∧
        r.ret = -(probe_count r.modules : Int) :=
  ⟨by unfold probe_deps_present; decide,
   load_depmod_unresolved_count world_ok 4 _ (by unfold probe_deps_present; decide)
     (by decide)⟩

/-- Claim C5 (counterexample). One `PROBE` record without dependencies whose insertion
succeeds: the first pass inserts it, the second pass finds nothing to do, so the loop
runs twice with `N = 1`. -/
theorem load_depmod_passes_exceed_probe_count :
    ∃ r, load_depmod world_ok 2 [mk_module "C" "-" State.PROBE] = .ok r ∧
      r.passes = 2 ∧ probe_count [mk_module "C" "-" State.PROBE] = 1 ∧
      ¬ r.passes ≤ probe_count [mk_module "C" "-" State.PROBE] :=
  ⟨_, rfl, by decide, by decide, by decide⟩

theorem load_depmod_passes_le_witness :
    probe_deps_present [mk_module "C" "-" State.PROBE] ∧
      ∃ r, load_depmod world_ok 2 [mk_module "C" "-" State.PROBE] = .ok r ∧
        r.passes ≤ probe_count [mk_module "C" "-" State.PROBE] + 1 :=
  ⟨by unfold probe_deps_present; decide,
   load_depmod_passes_le world_ok 2 _ (by unfold probe_deps_present; decide) (by decide)⟩

theorem load_depmod_legal_transitions_witness :
    probe_deps_present [mk_module "C" "-" State.PROBE, mk_module "A" "C," State.PROBE,
        mk_module "S" "" State.SCANNED] ∧
      ∃ r, load_depmod world_reject 4 [mk_module "C" "-" State.PROBE,
          mk_module "A" "C," State.PROBE, mk_module "S" "" State.SCANNED] = .ok r ∧
        r.modules.length = [mk_module "C" "-" State.PROBE, mk_module "A" "C," State.PROBE,
          mk_module "S" "" State.SCANNED].length ∧
        (∀ i, (state_at r.modules i = state_at [mk_module "C" "-" State.PROBE,
              mk_module "A" "C," State.PROBE, mk_module "S" "" State.SCANNED] i ∧
            ∀ a ∈ r.log, a.idx ≠ i) ∨
          (state_at [mk_module "C" "-" State.PROBE, mk_module "A" "C," State.PROBE,
              mk_module "S" "" State.SCANNED] i = some State.PROBE ∧
            ∃ a, r.log.filter (fun a => a.idx = i) = [a] ∧
              state_at r.modules i =
                some (if a.ret = 0 then State.LOADED else State.FAILED))) ∧
        (∀ a ∈ r.log, state_at a.before a.idx = some State.PROBE ∧
          state_at a.after a.idx = some (if a.ret = 0 then State.LOADED else State.FAILED) ∧
          ∀ j, j ≠ a.idx → state_at a.after j = state_at a.before j) :=
  ⟨by unfold probe_deps_present; decide,
   load_depmod_legal_transitions world_reject 4 _ (by unfold probe_deps_present; decide)
     (by decide)⟩

/-! ## Module names -/

theorem cstr_nul_free (l : List Nat) : 0 ∉ cstr l := by
  induction l with
  | nil => simp [cstr]
  | cons b bs ih =>
    unfold cstr
    split
    · simp
    · rename_i hb
      simp only [List.mem_cons, not_or]
      exact ⟨fun h => hb h.symm, ih⟩

theorem cstr_of_nul_free (l : List Nat) (h : 0 ∉ l) : cstr l = l := by
  induction l with
  | nil => rfl
  | cons b bs ih =>
    simp only [List.mem_cons, not_or] at h
    unfold cstr
    rw [if_neg (fun hb => h.1 hb.symm), ih h.2]

theorem cstr_append_nul (l r : List Nat) (h : 0 ∉ l) : cstr (l ++ 0 :: r) = l := by
  induction l with
  | nil => simp [cstr]
  | cons b bs ih =>
    simp only [List.mem_cons, not_or] at h
    simp only [List.cons_append]
    unfold cstr
    rw [if_neg (fun hb => h.1 hb.symm), ih h.2]

theorem basename_subset (l : List Nat) : ∀ x, x ∈ basename l → x ∈ l := by
  induction l with
  | nil => simp [basename]
  | cons c cs ih =>
    intro x hx
    unfold basename at hx
    split at hx
    · exact List.mem_cons_of_mem _ (ih x hx)
    · split at hx
      · exact List.mem_cons_of_mem _ hx
      · exact hx

theorem basename_no_slash (l : List Nat) : 47 ∉ basename l := by
  induction l with
  | nil => simp [basename]
  | cons c cs ih =>
    unfold basename
    split
    · exact ih
    · rename_i h1
      have h2 : 47 ∉ cs := by simpa using h1
      split
      · exact h2
      · rename_i h3
        simp only [List.mem_cons, not_or]
        exact ⟨fun h => h3 h.symm, h2⟩

theorem basename_of_no_slash (l : List Nat) (h : 47 ∉ l) : basename l = l := by
  cases l with
  | nil => rfl
  | cons c cs =>
    simp only [List.mem_cons, not_or] at h
    unfold basename
    have h2 : cs.contains 47 = false := by simpa using h.2
    rw [h2]
    simp only [Bool.false_eq_true, if_false]
    rw [if_neg (fun hc => h.1 hc.symm)]

theorem rewrite_of_nul_free (a b : Nat) (l : List Nat) (h : 0 ∉ l) :
    rewrite a b l = l.map (fun c => if c = a then b else c) := by
  induction l with
  | nil => rfl
  | cons c cs ih =>
    simp only [List.mem_cons, not_or] at h
    unfold rewrite
    rw [if_neg (fun hc => h.1 hc.symm), ih h.2]
    rfl

theorem cstr_rewrite (a b : Nat) (hb : b ≠ 0) (l : List Nat) :
    cstr (rewrite a b l) = rewrite a b (cstr l) := by
  induction l with
  | nil => rfl
  | cons c cs ih =>
    unfold rewrite
    by_cases hc : c = 0
    · subst hc
      simp [cstr, rewrite]
    · rw [if_neg hc]
      have h1 : (if c = a then b else c) ≠ 0 := by
        split
        · exact hb
        · exact hc
      rw [cstr, if_neg h1, cstr, if_neg hc, ih]
      simp only [rewrite, if_neg hc]

theorem cstr_set_nul (l r : List Nat) (k : Nat) (h : 0 ∉ l) (hk : k < l.length) :
    cstr ((l ++ r).set k 0) = l.take k := by
  induction l generalizing k with
  | nil => simp at hk
  | cons b bs ih =>
    simp only [List.mem_cons, not_or] at h
    cases k with
    | zero => simp [cstr]
    | succ k =>
      simp only [List.cons_append, List.set_cons_succ, List.take_succ_cons]
      rw [cstr, if_neg (fun hb => h.1 hb.symm)]
      rw [ih k h.2 (by simpa using hk)]

theorem starts_with_take (l n : List Nat) (j : Nat) (h : starts_with (l.take j) n = true) :
    starts_with l n = true := by
  induction n generalizing l j with
  | nil => cases l <;> rfl
  | cons x xs ih =>
    cases l with
    | nil => simp [starts_with] at h
    | cons c cs =>
      cases j with
      | zero => simp [starts_with] at h
      | succ j =>
        simp only [List.take_succ_cons, starts_with, Bool.and_eq_true, decide_eq_true_eq] at h ⊢
        exact ⟨h.1, ih cs j h.2⟩

theorem starts_with_length (l n : List Nat) (h : starts_with l n = true) :
    n.length ≤ l.length := by
  induction n generalizing l with
  | nil => simp
  | cons x xs ih =>
    cases l with
    | nil => simp [starts_with] at h
    | cons c cs =>
      simp only [starts_with, Bool.and_eq_true, decide_eq_true_eq] at h
      have := ih cs h.2
      simp only [List.length_cons]
      omega

theorem strstr_bound (hay needle : List Nat) (k : Nat) (h : strstr hay needle = some k) :
    k + needle.length ≤ hay.length := by
  induction hay generalizing k with
  | nil =>
    unfold strstr at h
    split at h
    · rename_i hn; simp at h; subst h; subst hn; simp
    · cases h
  | cons c cs ih =>
    unfold strstr at h
    split at h
    · rename_i hs
      simp at h; subst h
      simpa using starts_with_length _ _ hs
    · cases hs : strstr cs needle with
      | none => simp [hs] at h
      | some k1 =>
        simp [hs] at h
        subst h
        have := ih k1 hs
        simp only [List.length_cons]
        omega

theorem strstr_take_none (hay needle : List Nat) (k : Nat) (hn : needle ≠ [])
    (h : strstr hay needle = some k) : strstr (hay.take k) needle = none := by
  induction hay generalizing k with
  | nil => simp [strstr, hn]
  | cons c cs ih =>
    unfold strstr at h
    split at h
    · simp at h; subst h
      simp [strstr, hn]
    · rename_i hs
      cases hk : strstr cs needle with
      | none => simp [hk] at h
      | some k1 =>
        simp [hk] at h
        subst h
        simp only [List.take_succ_cons]
        unfold strstr
        have h1 : ¬ starts_with (c :: cs.take k1) needle = true := by
          intro h2
          exact hs (starts_with_take (c :: cs) needle (k1 + 1) (by simpa using h2))
        rw [if_neg h1, ih k1 hk]
        rfl

theorem starts_with_map (f : Nat → Nat) (l n : List Nat)
    (hf : ∀ c, ∀ x ∈ n, (f c = x ↔ c = x)) :
    starts_with (l.map f) n = starts_with l n := by
  induction n generalizing l with
  | nil => cases l <;> rfl
  | cons x xs ih =>
    cases l with
    | nil => rfl
    | cons c cs =>
      simp only [List.map_cons, starts_with]
      rw [ih cs (fun c y hy => hf c y (List.mem_cons_of_mem _ hy))]
      have := hf c x (List.mem_cons_self _ _)
      simp only [this]

theorem strstr_map (f : Nat → Nat) (l n : List Nat)
    (hf : ∀ c, ∀ x ∈ n, (f c = x ↔ c = x)) :
    strstr (l.map f) n = strstr l n := by
  induction l with
  | nil => rfl
  | cons c cs ih =>
    simp only [List.map_cons]
    unfold strstr
    rw [ih, ← List.map_cons, starts_with_map f (c :: cs) n hf]

theorem dash_to_underscore_fix (c x : Nat) (hx : x ∈ [46, 107, 111]) :
    ((if c = 45 then 95 else c) = x ↔ c = x) := by
  simp only [List.mem_cons, List.mem_singleton, List.not_mem_nil, or_false] at hx
  split <;> rcases hx with h | h | h <;> subst h <;> omega

/-- What `get_module_name` computes, on C strings: the base name, cut at the first
`.ko`, with every `-` replaced by `_`. -/
theorem get_module_name_eq (path : List Nat) (h : (basename (cstr path)).length < 32) :
    get_module_name path = .ok
      (((basename (cstr path)).take
          ((strstr (basename (cstr path)) [46, 107, 111]).getD 32)).map
        (fun c => if c = 45 then 95 else c)) := by
  have hnul : 0 ∉ basename (cstr path) :=
    fun h0 => cstr_nul_free path (basename_subset _ 0 h0)
  unfold get_module_name
  simp only
  rw [if_neg (by omega)]
  have hrep : List.replicate (32 - (basename (cstr path)).length) 0 =
      0 :: List.replicate (31 - (basename (cstr path)).length) 0 := by
    rw [show 32 - (basename (cstr path)).length = 31 - (basename (cstr path)).length + 1 by
      omega]
    rfl
  rw [hrep, cstr_append_nul _ _ hnul, cstr_rewrite 45 95 (by decide)]
  congr 1
  cases hs : strstr (basename (cstr path)) [46, 107, 111] with
  | none =>
    simp only [Option.getD_none]
    rw [cstr_append_nul _ _ hnul, rewrite_of_nul_free _ _ _ hnul,
      List.take_of_length_le (by omega)]
  | some t =>
    have hb := strstr_bound _ _ _ hs
    simp only [List.length_cons, List.length_nil] at hb
    simp only [Option.getD_some]
    rw [cstr_set_nul _ _ _ hnul (by omega)]
    rw [rewrite_of_nul_free _ _ _ (fun h0 => hnul (List.mem_of_mem_take h0))]

/-- Claim C8. For every path whose base name is shorter than 32 bytes,
`get_module_name` returns a name, applying it to that name returns the same name, and
the name contains no `-`. -/
theorem get_module_name_idempotent (path : List Nat)
    (h : (basename (cstr path)).length < 32) :
    ∃ name, get_module_name path = .ok name ∧ get_module_name name = .ok name ∧
      45 ∉ name := by
  have hnul : 0 ∉ basename (cstr path) :=
    fun h0 => cstr_nul_free path (basename_subset _ 0 h0)
  refine ⟨_, get_module_name_eq path h, ?_, ?_⟩
  · generalize hr : ((basename (cstr path)).take
        ((strstr (basename (cstr path)) [46, 107, 111]).getD 32)).map
        (fun c => if c = 45 then 95 else c) = r
    have hsub : ∀ x ∈ r, x ≠ 0 ∧ x ≠ 47 ∧ x ≠ 45 := by
      intro x hx
      rw [← hr] at hx
      obtain ⟨c, hc, hcx⟩ := List.mem_map.mp hx
      have hc1 := List.mem_of_mem_take hc
      have hc0 : c ≠ 0 := fun h0 => hnul (h0 ▸ hc1)
      have hc47 : c ≠ 47 := fun h0 => basename_no_slash _ (h0 ▸ hc1)
      split at hcx <;> omega
    have hr0 : 0 ∉ r := fun h0 => (hsub 0 h0).1 rfl
    have hr47 : 47 ∉ r := fun h0 => (hsub 47 h0).2.1 rfl
    have hr45 : 45 ∉ r := fun h0 => (hsub 45 h0).2.2 rfl
    have hlen : r.length < 32 := by
      rw [← hr, List.length_map, List.length_take]
      omega
    have hstr : strstr r [46, 107, 111] = none := by
      rw [← hr, strstr_map _ _ _ dash_to_underscore_fix]
      cases hs : strstr (basename (cstr path)) [46, 107, 111] with
      | none =>
        simp only [Option.getD_none]
        rw [List.take_of_length_le (by omega), hs]
      | some t =>
        simp only [Option.getD_some]
        exact strstr_take_none _ _ _ (by simp) hs
    have hbase : basename (cstr r) = r := by
      rw [cstr_of_nul_free r hr0, basename_of_no_slash r hr47]
    have := get_module_name_eq r (by rw [hbase]; exact hlen)
    rw [this, hbase, hstr]
    simp only [Option.getD_none]
    rw [List.take_of_length_le (by omega)]
    congr 1
    conv_rhs => rw [← List.map_id r]
    apply List.map_congr_left
    intro c hc
    have := (hsub c hc).2.2
    simp [this]
  · intro h45
    obtain ⟨c, _, hcx⟩ := List.mem_map.mp h45
    split at hcx <;> omega

theorem get_module_name_idempotent_witness :
    (basename (cstr (str "/lib/modules/6.1/nf-conntrack-ipv4.ko"))).length < 32 ∧
      ∃ name, get_module_name (str "/lib/modules/6.1/nf-conntrack-ipv4.ko") = .ok name ∧
        get_module_name name = .ok name ∧ 45 ∉ name :=
  ⟨by decide, get_module_name_idempotent _ (by decide)⟩

/-! ## Section lookup -/

theorem strcmp_at_of_cstr_in (map : List Nat) :
    ∀ (s : List Nat) (addr : Nat) (name : List Nat), 0 ∉ s →
      cstr_in (map.drop addr) = some name →
      strcmp_at map addr s = .ok (decide (name = s)) := by
  intro s
  induction s with
  | nil =>
    intro addr name _ h
    unfold strcmp_at
    cases hd : map.drop addr with
    | nil => rw [hd] at h; simp [cstr_in] at h
    | cons b bs =>
      have hb : map[addr]? = some b := by
        have := congrArg List.head? hd
        simpa [List.head?_drop] using this
      rw [hb]
      rw [hd] at h
      unfold cstr_in at h
      by_cases hb0 : b = 0
      · rw [if_pos hb0] at h
        simp at h
        subst h
        simp [hb0]
      · rw [if_neg hb0] at h
        cases hc : cstr_in bs with
        | none => simp [hc] at h
        | some t =>
          simp [hc] at h
          subst h
          simp [hb0]
  | cons c cs ih =>
    intro addr name hs h
    simp only [List.mem_cons, not_or] at hs
    unfold strcmp_at
    cases hd : map.drop addr with
    | nil => rw [hd] at h; simp [cstr_in] at h
    | cons b bs =>
      have hb : map[addr]? = some b := by
        have := congrArg List.head? hd
        simpa [List.head?_drop] using this
      have hbs : map.drop (addr + 1) = bs := by
        have := congrArg List.tail hd
        simpa [List.tail_drop] using this
      rw [hb]
      rw [hd] at h
      unfold cstr_in at h
      dsimp only
      by_cases hb0 : b = 0
      · rw [if_pos hb0] at h
        simp at h
        subst h
        have : ¬ b = c := fun hbc => hs.1 (by omega)
        rw [if_neg this]
        simp
      · rw [if_neg hb0] at h
        cases hc : cstr_in bs with
        | none => simp [hc] at h
        | some t =>
          simp [hc] at h
          subst h
          by_cases hbc : b = c
          · rw [if_pos hbc, ih (addr + 1) t hs.2 (by rw [hbs]; exact hc)]
            simp [hbc]
          · rw [if_neg hbc]
            simp [hbc]

theorem elf_find_section_loop_refines (L : ElfLayout) (map s : List Nat)
    (shoff secnames : Nat) (hs : 0 ∉ s) :
    ∀ (n i : Nat) (hdrs : List SectionHeader),
      section_headers_from L map shoff secnames n i = .ok hdrs →
      elf_find_section_loop L map s shoff secnames n i = .ok
        ((hdrs.find? (fun h => h.name = s)).map
          (fun h => (h.sh_offset % 2 ^ 32, h.sh_size % 2 ^ 32))) := by
  intro n
  induction n with
  | zero =>
    intro i hdrs h
    simp only [section_headers_from, Except.ok.injEq] at h
    subst h
    rfl
  | succ n ih =>
    intro i hdrs h
    unfold section_headers_from at h
    unfold elf_find_section_loop
    cases h1 : read_uint L map (shoff + i * L.shdr_len + L.sh_name_at) 4 with
    | error e => rw [h1] at h; cases h
    | ok sh_name =>
      rw [h1] at h
      dsimp only at h ⊢
      cases h2 : cstr_at map (secnames + sh_name) with
      | error e => rw [h2] at h; cases h
      | ok name =>
        rw [h2] at h
        dsimp only at h
        have hcmp : strcmp_at map (secnames + sh_name) s = .ok (decide (name = s)) := by
          apply strcmp_at_of_cstr_in map s _ name hs
          unfold cstr_at at h2
          cases hc : cstr_in (map.drop (secnames + sh_name)) with
          | none => rw [hc] at h2; cases h2
          | some t => rw [hc] at h2; cases h2; rfl
        rw [hcmp]
        cases h3 : read_uint L map (shoff + i * L.shdr_len + L.sh_size_at) L.sh_size_len with
        | error e => rw [h3] at h; cases h
        | ok sh_size =>
          rw [h3] at h
          dsimp only at h
          cases h4 : read_uint L map (shoff + i * L.shdr_len + L.sh_offset_at)
              L.sh_offset_len with
          | error e => rw [h4] at h; cases h
          | ok sh_offset =>
            rw [h4] at h
            dsimp only at h
            cases h5 : section_headers_from L map shoff secnames n (i + 1) with
            | error e => rw [h5] at h; cases h
            | ok rest =>
              rw [h5] at h
              simp only [Except.ok.injEq] at h
              subst h
              by_cases hn : name = s
              · simp [hn]
              · have hf : List.find? (fun h => decide (h.name = s))
                    (⟨name, sh_offset, sh_size⟩ :: rest) =
                    List.find? (fun h => decide (h.name = s)) rest := by
                  rw [List.find?_cons_of_neg]
                  simpa using hn
                rw [hf]
                simp only [hn, decide_False]
                exact ih (i + 1) rest h5

/-- Claim C10 (amended). For every layout and every image whose section header table
can be decoded (file header, section headers and the names they refer to lie inside
the image), `elf_find_section` returns `0` with `offset` and `size` set to `sh_offset`
and `sh_size`, reduced modulo `2 ^ 32`, of the first section header whose name equals
the requested name, and it returns `-1` exactly when no section header has that name. -/
theorem elf_find_section_first_match (L : ElfLayout) (map sect : List Nat)
    (hdrs : List SectionHeader) (h : section_headers L map = .ok hdrs) :
    elf_find_section L map sect = .ok
        ((hdrs.find? (fun h => h.name = cstr sect)).map
          (fun h => (h.sh_offset % 2 ^ 32, h.sh_size % 2 ^ 32))) ∧
      (elf_find_section L map sect = .ok none ↔
        ∀ h ∈ hdrs, h.name ≠ cstr sect) := by
  have key : elf_find_section L map sect = .ok
        ((hdrs.find? (fun h => h.name = cstr sect)).map
          (fun h => (h.sh_offset % 2 ^ 32, h.sh_size % 2 ^ 32))) := by
    unfold section_headers at h
    unfold elf_find_section
    cases h1 : read_uint L map L.e_shoff_at L.e_shoff_len with
    | error e => rw [h1] at h; cases h
    | ok e_shoff =>
      rw [h1] at h
      dsimp only at h ⊢
      cases h2 : read_uint L map L.e_shstrndx_at 2 with
      | error e => rw [h2] at h; cases h
      | ok e_shstrndx =>
        rw [h2] at h
        dsimp only at h ⊢
        cases h3 : read_uint L map (e_shoff + e_shstrndx * L.shdr_len + L.sh_offset_at)
            L.sh_offset_len with
        | error e => rw [h3] at h; cases h
        | ok secnames =>
          rw [h3] at h
          dsimp only at h ⊢
          cases h4 : read_uint L map L.e_shnum_at 2 with
          | error e => rw [h4] at h; cases h
          | ok e_shnum =>
            rw [h4] at h
            dsimp only at h ⊢
            exact elf_find_section_loop_refines L map (cstr sect) e_shoff secnames
              (cstr_nul_free sect) e_shnum 0 hdrs h
  refine ⟨key, ?_⟩
  rw [key]
  simp only [Except.ok.injEq, Option.map_eq_none', List.find?_eq_none, decide_eq_true_eq]

/-! ## The parsing loops do not run out of fuel -/

theorem read_bytes_fault (map : List Nat) :
    ∀ (len addr : Nat) (e : Fault), read_bytes map addr len = .error e →
      e = Fault.out_of_bounds := by
  intro len
  induction len with
  | zero => intro addr e h; simp [read_bytes] at h
  | succ len ih =>
    intro addr e h
    unfold read_bytes at h
    split at h
    · cases h; rfl
    · split at h
      · rename_i e1 he
        cases h
        exact ih _ _ he
      · cases h

theorem read_uint_fault (L : ElfLayout) (map : List Nat) (addr len : Nat) (e : Fault)
    (h : read_uint L map addr len = .error e) : e = Fault.out_of_bounds := by
  unfold read_uint at h
  split at h
  · rename_i e1 he
    cases h
    exact read_bytes_fault map len addr _ he
  · cases h

theorem strcmp_at_fault (map : List Nat) :
    ∀ (s : List Nat) (addr : Nat) (e : Fault), strcmp_at map addr s = .error e →
      e = Fault.out_of_bounds := by
  intro s
  induction s with
  | nil =>
    intro addr e h
    unfold strcmp_at at h
    split at h
    · cases h; rfl
    · cases h
  | cons c cs ih =>
    intro addr e h
    unfold strcmp_at at h
    split at h
    · cases h; rfl
    · split at h
      · exact ih _ _ h
      · cases h

theorem elf_find_section_loop_fault (L : ElfLayout) (map sect : List Nat)
    (shoff secnames : Nat) :
    ∀ (n i : Nat) (e : Fault),
      elf_find_section_loop L map sect shoff secnames n i = .error e →
      e = Fault.out_of_bounds := by
  intro n
  induction n with
  | zero => intro i e h; simp [elf_find_section_loop] at h
  | succ n ih =>
    intro i e h
    unfold elf_find_section_loop at h
    split at h
    · rename_i e1 he; cases h; exact read_uint_fault _ _ _ _ _ he
    · split at h
      · rename_i e1 he; cases h; exact strcmp_at_fault _ _ _ _ he
      · split at h
        · rename_i e1 he; cases h; exact read_uint_fault _ _ _ _ _ he
        · split at h
          · rename_i e1 he; cases h; exact read_uint_fault _ _ _ _ _ he
          · cases h
      · exact ih _ _ h

theorem elf_find_section_fault (L : ElfLayout) (map sect : List Nat) (e : Fault)
    (h : elf_find_section L map sect = .error e) : e = Fault.out_of_bounds := by
  unfold elf_find_section at h
  split at h
  · rename_i e1 he; cases h; exact read_uint_fault _ _ _ _ _ he
  · split at h
    · rename_i e1 he; cases h; exact read_uint_fault _ _ _ _ _ he
    · split at h
      · rename_i e1 he; cases h; exact read_uint_fault _ _ _ _ _ he
      · split at h
        · rename_i e1 he; cases h; exact read_uint_fault _ _ _ _ _ he
        · exact elf_find_section_loop_fault _ _ _ _ _ _ _ _ h

theorem get_module_info_loop_fuel (map : List Nat) (stop : Nat) :
    ∀ (fuel strings : Nat) (depends : Option (List Nat)) (seen : List Entry),
      1 ≤ fuel → stop + 1 ≤ fuel + strings →
      get_module_info_loop map stop fuel strings depends seen ≠ .error .out_of_fuel := by
  intro fuel
  induction fuel with
  | zero => intro strings depends seen h; omega
  | succ fuel ih =>
    intro strings depends seen _ h2
    unfold get_module_info_loop
    split
    · rename_i hlt
      split
      · simp
      · rename_i k _
        split
        · rename_i e he
          unfold cstr_at at he
          split at he
          · cases he; simp
          · cases he
        · rename_i entry _
          split
          · simp
          · rename_i len hlen
            have := strstr_lt _ _ _ hlen
            exact ih (strings + k + entry.length) _ _ (by omega) (by omega)
    · simp

theorem print_modinfo_loop_fuel (map : List Nat) (stop : Nat) :
    ∀ (fuel strings : Nat) (out : List Nat),
      1 ≤ fuel → stop + 1 ≤ fuel + strings →
      print_modinfo_loop map stop fuel strings out ≠ .error .out_of_fuel := by
  intro fuel
  induction fuel with
  | zero => intro strings out h; omega
  | succ fuel ih =>
    intro strings out _ h2
    unfold print_modinfo_loop
    split
    · rename_i hlt
      split
      · simp
      · rename_i k _
        split
        · rename_i e he
          unfold cstr_at at he
          split at he
          · cases he; simp
          · cases he
        · rename_i entry _
          split
          · simp
          · rename_i len hlen
            have := strstr_lt _ _ _ hlen
            exact ih (strings + k + entry.length) _ (by omega) (by omega)
    · simp

/-- The fuel that `get_module_info` gives its loop is never used up. -/
theorem get_module_info_fuel (L : ElfLayout) (fs : Files) (path : List Nat) :
    get_module_info L fs path ≠ .error .out_of_fuel := by
  unfold get_module_info
  split
  · simp
  · rename_i map _
    split
    · rename_i e he
      have := elf_find_section_fault _ _ _ _ he
      subst this
      simp
    · simp
    · rename_i offset size _
      have := get_module_info_loop_fuel map (offset + size) (size + 1) offset none []
        (by omega) (by omega)
      split
      · rename_i e he
        intro h
        simp only [Except.error.injEq] at h
        subst h
        exact this he
      · simp

/-- The fuel that `print_modinfo` gives its loop is never used up. -/
theorem print_modinfo_fuel (L : ElfLayout) (fs : Files) (path : List Nat) :
    print_modinfo L fs path ≠ .error .out_of_fuel := by
  unfold print_modinfo
  split
  · simp
  · rename_i map _
    split
    · rename_i e he
      have := elf_find_section_fault _ _ _ _ he
      subst this
      simp
    · simp
    · rename_i offset size _
      have := print_modinfo_loop_fuel map (offset + size) (size + 1) offset
        (str "module:\t\t" ++ cstr path ++ str "\n") (by omega) (by omega)
      split
      · rename_i e he
        intro h
        simp only [Except.error.injEq] at h
        subst h
        exact this he
      · simp

/-! ## Section lookup and module information on concrete images -/

set_option maxRecDepth 200000

/-- Claim C10 (counterexample). In a 64-bit image whose headers and string table lie
inside the buffer and whose `.modinfo` header has `sh_size = 2 ^ 32 + 16`,
`elf_find_section` sets `size` to `16`, not to `sh_size`. -/
theorem elf_find_section_truncates_size :
    section_headers elf64 image_huge = .ok
        [⟨str ".shstrtab", 256, 26⟩, ⟨str ".modinfo", 282, 4294967312⟩,
          ⟨str ".data", 298, 0⟩] ∧
      elf_find_section elf64 image_huge (str ".modinfo") = .ok (some (282, 16)) ∧
      (16 : Nat) ≠ 4294967312 :=
  ⟨by rfl, by rfl, by decide⟩

theorem elf_find_section_first_match_witness :
    section_headers elf64 image_plain = .ok
        [⟨str ".shstrtab", 256, 26⟩, ⟨str ".modinfo", 282, 38⟩, ⟨str ".data", 320, 5⟩] ∧
      (elf_find_section elf64 image_plain (str ".modinfo") = .ok
          ((([⟨str ".shstrtab", 256, 26⟩, ⟨str ".modinfo", 282, 38⟩,
              ⟨str ".data", 320, 5⟩] : List SectionHeader).find?
              (fun h => h.name = cstr (str ".modinfo"))).map
            (fun h => (h.sh_offset % 2 ^ 32, h.sh_size % 2 ^ 32))) ∧
        (elf_find_section elf64 image_plain (str ".modinfo") = .ok none ↔
          ∀ h ∈ ([⟨str ".shstrtab", 256, 26⟩, ⟨str ".modinfo", 282, 38⟩,
              ⟨str ".data", 320, 5⟩] : List SectionHeader),
            h.name ≠ cstr (str ".modinfo"))) :=
  ⟨by rfl, elf_find_section_first_match elf64 image_plain (str ".modinfo") _ (by rfl)⟩

/-- Claim C7 (failing input). The `.modinfo` section
`depends=foo,bar\0license=GPL\0\0author=x\0` occupies the bytes 282 to 319 of both
images. In `image_plain` two NUL bytes and a string without `=` follow it: the loop of
`get_module_info` visits the three entries and records `foo,bar`. In `image_trailing`
the string `depends=zzz` follows it: the loop visits a fourth entry at address 320,
behind the section, and records `zzz` as `depends`; the loop of `print_modinfo` prints
that entry as well. -/
theorem get_module_info_reads_behind_section :
    elf_find_section elf64 image_plain (str ".modinfo") = .ok (some (282, 38)) ∧
      get_module_info elf64 (one_file "x.ko" image_plain) (str "x.ko") = .ok (some
        (⟨[], some (str "foo,bar"), 325, 0, State.SCANNED⟩,
          [⟨282, str "depends", str "foo,bar"⟩, ⟨298, str "license", str "GPL"⟩,
            ⟨311, str "author", str "x"⟩])) ∧
      elf_find_section elf64 image_trailing (str ".modinfo") = .ok (some (282, 38)) ∧
      image_trailing.drop 282 = modinfo_sample ++ str "depends=zzz\x00" ∧
      get_module_info elf64 (one_file "x.ko" image_trailing) (str "x.ko") = .ok (some
        (⟨[], some (str "zzz"), 332, 0, State.SCANNED⟩,
          [⟨282, str "depends", str "foo,bar"⟩, ⟨298, str "license", str "GPL"⟩,
            ⟨311, str "author", str "x"⟩, ⟨320, str "depends", str "zzz"⟩])) ∧
      print_modinfo elf64 (one_file "x.ko" image_trailing) (str "x.ko") = .ok
        (0, str "module:\t\tx.ko\ndepends:\tfoo,bar\nlicense:\tGPL\nauthor:\t\tx\ndepends:\tzzz\n") :=
  ⟨by rfl, by rfl, by rfl, by rfl, by rfl, by rfl⟩

/-! ## The parsing loop on a section followed by harmless bytes -/

theorem skip_nul_replicate (n : Nat) (l : List Nat) :
    skip_nul (List.replicate n 0 ++ l) = (skip_nul l).map (· + n) := by
  induction n with
  | zero => simp
  | succ n ih =>
    have h : List.replicate (n + 1) 0 ++ l = 0 :: (List.replicate n 0 ++ l) := rfl
    rw [h, skip_nul, if_pos rfl, ih]
    cases skip_nul l with
    | none => rfl
    | some k => simp only [Option.map_some', Option.some.injEq]; omega

theorem skip_nul_of_head (l r : List Nat) (hl : l ≠ []) (h0 : 0 ∉ l) :
    skip_nul (l ++ r) = some 0 := by
  cases l with
  | nil => exact absurd rfl hl
  | cons c cs =>
    simp only [List.mem_cons, not_or] at h0
    rw [List.cons_append, skip_nul, if_neg (fun h => h0.1 h.symm)]

theorem cstr_in_append_nul (s rest : List Nat) (h0 : 0 ∉ s) :
    cstr_in (s ++ 0 :: rest) = some s := by
  induction s with
  | nil => simp [cstr_in]
  | cons c cs ih =>
    simp only [List.mem_cons, not_or] at h0
    rw [List.cons_append, cstr_in, if_neg (fun h => h0.1 h.symm), ih h0.2]
    rfl

theorem strstr_at_sep (key value : List Nat) (c : Nat) (h : c ∉ key) :
    strstr (key ++ c :: value) [c] = some key.length := by
  induction key with
  | nil => simp [strstr, starts_with]
  | cons k ks ih =>
    simp only [List.mem_cons, not_or] at h
    have hk : ¬ k = c := fun hk => h.1 hk.symm
    have hs : starts_with (k :: (ks ++ c :: value)) [c] = false := by
      simp [starts_with, hk]
    rw [List.cons_append, strstr, hs, ih h.2]
    rfl

theorem strstr_absent (l : List Nat) (c : Nat) (h : c ∉ l) : strstr l [c] = none := by
  induction l with
  | nil => simp [strstr]
  | cons k ks ih =>
    simp only [List.mem_cons, not_or] at h
    have hk : ¬ k = c := fun hk => h.1 hk.symm
    have hs : starts_with (k :: ks) [c] = false := by
      simp [starts_with, hk]
    rw [strstr, hs, ih h.2]
    rfl

theorem append_sep_inj (a b r1 r2 : List Nat) (c : Nat) (ha : c ∉ a) (hb : c ∉ b)
    (h : a ++ c :: r1 = b ++ c :: r2) : a = b := by
  induction a generalizing b with
  | nil =>
    cases b with
    | nil => rfl
    | cons y ys =>
      simp only [List.nil_append, List.cons_append, List.cons.injEq] at h
      simp only [List.mem_cons, not_or] at hb
      exact absurd h.1 hb.1
  | cons x xs ih =>
    cases b with
    | nil =>
      simp only [List.nil_append, List.cons_append, List.cons.injEq] at h
      simp only [List.mem_cons, not_or] at ha
      exact absurd h.1.symm ha.1
    | cons y ys =>
      simp only [List.cons_append, List.cons.injEq] at h
      simp only [List.mem_cons, not_or] at ha hb
      rw [h.1, ih ys ha.2 hb.2 h.2]

theorem strncmp_depends (key value : List Nat) (h : 61 ∉ key) :
    strncmp_eq (key ++ 61 :: value) (str "depends=") (key.length + 1) =
      decide (key = str "depends") := by
  unfold strncmp_eq
  have htake : (key ++ 61 :: value).take (key.length + 1) = key ++ [61] := by
    rw [List.take_append_eq_append_take]
    simp
  rw [htake]
  by_cases hk : key = str "depends"
  · subst hk
    simp only [decide_True]
    decide
  · simp only [hk, decide_False, decide_eq_false_iff_not]
    intro heq
    apply hk
    have hD : str "depends=" = str "depends" ++ 61 :: [] := by decide
    have hsplit := List.take_append_drop (key.length + 1) (str "depends=")
    rw [← heq, hD] at hsplit
    have : key ++ 61 :: ([] ++ List.drop (key.length + 1) (str "depends" ++ [61])) =
        str "depends" ++ 61 :: [] := by
      simpa using hsplit
    exact append_sep_inj key (str "depends") _ _ 61 h (by decide) this

theorem drop_prefix (pre l : List Nat) (n : Nat) (h : n = pre.length) :
    (pre ++ l).drop n = l := by
  subst h
  exact List.drop_left _ _

/-- The loop of `get_module_info` on an image that holds, from the cursor on, `z` NUL
bytes, the entries `es`, `tail` NUL bytes and then a harmless tail: it visits exactly
the entries of `es`, in order, and returns the value of the last `depends` entry. -/
theorem get_module_info_loop_entries :
    ∀ (es : List (Nat × List Nat × List Nat)) (pre : List Nat) (z tail : Nat)
      (post : List Nat) (d : Option (List Nat)) (seen : List Entry) (fuel : Nat),
      entries_wf es → benign_tail post → es.length + 1 ≤ fuel →
      ∃ seen1,
        get_module_info_loop (pre ++ List.replicate z 0 ++ section_bytes es tail ++ post)
          (pre.length + z + (section_bytes es tail).length) fuel pre.length d seen =
          .ok (depends_of d es, seen ++ seen1) ∧
        seen1.map (fun e => (e.key, e.value)) = es.map (fun e => (e.2.1, e.2.2)) := by
  intro es
  induction es with
  | nil =>
    intro pre z tail post d seen fuel _ hpost hfuel
    obtain ⟨j, junk, rest, hp, hj, hj0, hj61⟩ := hpost
    refine ⟨[], ?_, rfl⟩
    obtain ⟨fuel, rfl⟩ : ∃ f, fuel = f + 1 := ⟨fuel - 1, by simp at hfuel; omega⟩
    unfold get_module_info_loop
    simp only [section_bytes, List.length_replicate, depends_of, List.append_nil]
    by_cases hlt : pre.length < pre.length + z + tail
    · rw [if_pos hlt]
      have hmap : pre ++ List.replicate z 0 ++ List.replicate tail 0 ++ post =
          pre ++ (List.replicate (z + tail + j) 0 ++ (junk ++ 0 :: rest)) := by
        rw [hp]
        simp only [List.append_assoc, List.replicate_add]
      rw [hmap, List.drop_left, skip_nul_replicate, skip_nul_of_head junk _ hj hj0]
      simp only [Option.map_some', Nat.zero_add]
      unfold cstr_at
      rw [← List.append_assoc, drop_prefix _ _ _ (by simp), cstr_in_append_nul junk rest hj0]
      simp only
      rw [strstr_absent junk 61 hj61]
    · rw [if_neg hlt]
  | cons e es ih =>
    intro pre z tail post d seen fuel hwf hpost hfuel
    obtain ⟨pad, key, value⟩ := e
    have hwf1 := hwf (pad, key, value) (List.mem_cons_self _ _)
    simp only at hwf1
    obtain ⟨hk0, hk61, hv0⟩ := hwf1
    obtain ⟨fuel, rfl⟩ : ∃ f, fuel = f + 1 := ⟨fuel - 1, by simp at hfuel; omega⟩
    have hent0 : 0 ∉ key ++ 61 :: value := by
      simp only [List.mem_append, List.mem_cons, not_or]
      exact ⟨hk0, by decide, hv0⟩
    have hentne : key ++ 61 :: value ≠ [] := by simp
    obtain ⟨seen1, h1, h2⟩ := ih (pre ++ List.replicate (z + pad) 0 ++ (key ++ 61 :: value)) 1
      tail post (if key = str "depends" then some value else d)
      (seen ++ [⟨pre.length + (z + pad), key, value⟩]) fuel
      (fun x hx => hwf x (List.mem_cons_of_mem _ hx)) hpost (by simpa using hfuel)
    refine ⟨⟨pre.length + (z + pad), key, value⟩ :: seen1, ?_, by simp [h2]⟩
    have hmap : pre ++ List.replicate z 0 ++ section_bytes ((pad, key, value) :: es) tail ++
        post = pre ++ (List.replicate (z + pad) 0 ++
          ((key ++ 61 :: value) ++ 0 :: (section_bytes es tail ++ post))) := by
      simp only [section_bytes, List.append_assoc, List.replicate_add, List.cons_append]
    have hmap1 : pre ++ List.replicate (z + pad) 0 ++ (key ++ 61 :: value) ++
        List.replicate 1 0 ++ section_bytes es tail ++ post =
        pre ++ (List.replicate (z + pad) 0 ++
          ((key ++ 61 :: value) ++ 0 :: (section_bytes es tail ++ post))) := by
      simp only [List.append_assoc, List.replicate_one, List.cons_append, List.nil_append,
        List.singleton_append]
    have hstop : pre.length + z + (section_bytes ((pad, key, value) :: es) tail).length =
        (pre ++ List.replicate (z + pad) 0 ++ (key ++ 61 :: value)).length + 1 +
          (section_bytes es tail).length := by
      simp only [section_bytes, List.length_append, List.length_replicate, List.length_cons]
      omega
    have hcur : (pre ++ List.replicate (z + pad) 0 ++ (key ++ 61 :: value)).length =
        pre.length + (z + pad) + (key ++ 61 :: value).length := by
      simp only [List.length_append, List.length_replicate]
    rw [hmap1, ← hstop, hcur] at h1
    unfold get_module_info_loop
    have hlt : pre.length < pre.length + z +
        (section_bytes ((pad, key, value) :: es) tail).length := by
      simp only [section_bytes, List.length_append, List.length_replicate, List.length_cons]
      omega
    rw [if_pos hlt, hmap, List.drop_left, skip_nul_replicate,
      skip_nul_of_head _ _ hentne hent0]
    simp only [Option.map_some', Nat.zero_add]
    unfold cstr_at
    rw [← List.append_assoc, drop_prefix _ _ _ (by simp),
      cstr_in_append_nul _ _ hent0]
    simp only
    rw [strstr_at_sep key value 61 hk61]
    simp only
    rw [strncmp_depends key value hk61]
    have htk : (key ++ 61 :: value).take key.length = key := by simp
    have hdr : (key ++ 61 :: value).drop (key.length + 1) = value := by
      rw [List.drop_append_eq_append_drop]
      simp
    rw [htk, hdr, List.append_assoc]
    simp only [decide_eq_true_eq]
    rw [h1]
    simp [depends_of]

theorem section_bytes_length (es : List (Nat × List Nat × List Nat)) (tail : Nat) :
    es.length ≤ (section_bytes es tail).length := by
  induction es with
  | nil => simp
  | cons e es ih =>
    obtain ⟨pad, key, value⟩ := e
    simp only [section_bytes, List.length_cons, List.length_append, List.length_replicate]
    omega

/-- The loop of `get_module_info`, called as the function calls it on a section at
offset `pre.length` that is made of the entries `es`: when harmless bytes follow the
section in the image, the loop visits exactly the entries of the section, in order,
each split at its first `=`, and `depends` is the value of the last `depends` entry. -/
theorem get_module_info_loop_section (es : List (Nat × List Nat × List Nat)) (tail : Nat)
    (pre post : List Nat) (hwf : entries_wf es) (hpost : benign_tail post) :
    ∃ seen,
      get_module_info_loop (pre ++ section_bytes es tail ++ post)
        (pre.length + (section_bytes es tail).length)
        ((section_bytes es tail).length + 1) pre.length none [] =
        .ok (depends_of none es, seen) ∧
      seen.map (fun e => (e.key, e.value)) = es.map (fun e => (e.2.1, e.2.2)) := by
  have hlen := section_bytes_length es tail
  obtain ⟨seen, h1, h2⟩ := get_module_info_loop_entries es pre 0 tail post none []
    ((section_bytes es tail).length + 1) hwf hpost (by omega)
  refine ⟨seen, ?_, h2⟩
  simpa using h1

theorem get_module_info_loop_section_witness :
    entries_wf [(0, str "depends", str "foo,bar"), (0, str "license", str "GPL"),
        (1, str "author", str "x")] ∧
      benign_tail (str "\x00\x00\x01\x02\x00") ∧
      ∃ seen,
        get_module_info_loop
          ([1, 2, 3] ++ section_bytes [(0, str "depends", str "foo,bar"),
            (0, str "license", str "GPL"), (1, str "author", str "x")] 0 ++
            str "\x00\x00\x01\x02\x00")
          (([1, 2, 3] : List Nat).length + (section_bytes [(0, str "depends", str "foo,bar"),
            (0, str "license", str "GPL"), (1, str "author", str "x")] 0).length)
          ((section_bytes [(0, str "depends", str "foo,bar"),
            (0, str "license", str "GPL"), (1, str "author", str "x")] 0).length + 1)
          ([1, 2, 3] : List Nat).length none [] =
          .ok (depends_of none [(0, str "depends", str "foo,bar"),
            (0, str "license", str "GPL"), (1, str "author", str "x")], seen) ∧
        seen.map (fun e => (e.key, e.value)) =
          [(0, str "depends", str "foo,bar"), (0, str "license", str "GPL"),
            (1, str "author", str "x")].map (fun e => (e.2.1, e.2.2)) :=
  ⟨by unfold entries_wf; decide,
   ⟨2, [1, 2], [], by decide, by decide, by decide, by decide⟩,
   get_module_info_loop_section _ 0 [1, 2, 3] _ (by unfold entries_wf; decide)
     ⟨2, [1, 2], [], by decide, by decide, by decide, by decide⟩⟩

/-! ## Populating the registry -/

theorem find_module_none (modules : List module) (name : List Nat)
    (h : find_module modules name = none) : ∀ m ∈ modules, cstr m.name ≠ cstr name := by
  induction modules with
  | nil => simp
  | cons a as ih =>
    unfold find_module at h
    split at h
    · cases h
    · rename_i hne
      have h1 : find_module as name = none := by
        cases hf : find_module as name with
        | none => rfl
        | some j => simp [hf] at h
      intro m hm
      rcases List.mem_cons.mp hm with h2 | h2
      · subst h2; exact hne
      · exact ih h1 m h2

theorem get_module_name_cstr (path name : List Nat) (h : get_module_name path = .ok name) :
    cstr name = name := by
  unfold get_module_name at h
  simp only at h
  split at h
  · cases h
  · simp only [Except.ok.injEq] at h
    subst h
    exact cstr_of_nul_free _ (cstr_nul_free _)

theorem names_unique_append (modules : List module) (x : module)
    (hu : names_unique modules) (hx : ∀ m ∈ modules, cstr m.name ≠ cstr x.name) :
    names_unique (modules ++ [x]) := by
  unfold names_unique at hu ⊢
  rw [List.map_append, List.nodup_append]
  refine ⟨hu, by simp, ?_⟩
  intro a ha hb
  simp only [List.map_cons, List.map_nil, List.mem_singleton] at hb
  obtain ⟨m, hm, hma⟩ := List.mem_map.mp ha
  exact hx m hm (hma.trans hb)

theorem scan_module_folder_loop_keeps (L : ElfLayout) (fs : Files) :
    ∀ (paths : List (List Nat)) (modules modules1 : List module),
      scan_module_folder_loop L fs paths modules = .ok modules1 →
      modules <+: modules1 ∧ (names_unique modules → names_unique modules1) := by
  intro paths
  induction paths with
  | nil =>
    intro modules modules1 h
    simp only [scan_module_folder_loop, Except.ok.injEq] at h
    subst h
    exact ⟨List.prefix_refl _, id⟩
  | cons path paths ih =>
    intro modules modules1 h
    unfold scan_module_folder_loop at h
    cases hn : get_module_name path with
    | error e => rw [hn] at h; cases h
    | ok name =>
      rw [hn] at h
      dsimp only at h
      cases hf : find_module modules name with
      | some j =>
        rw [hf] at h
        exact ih modules modules1 h
      | none =>
        rw [hf] at h
        dsimp only at h
        cases hi : get_module_info L fs path with
        | error e => rw [hi] at h; cases h
        | ok o =>
          rw [hi] at h
          cases o with
          | none => cases h
          | some p =>
            obtain ⟨m, seen⟩ := p
            dsimp only at h
            obtain ⟨h1, h2⟩ := ih _ modules1 h
            refine ⟨List.IsPrefix.trans (List.prefix_append _ _) h1, ?_⟩
            intro hu
            apply h2
            apply names_unique_append _ _ hu
            exact find_module_none modules name hf

theorem scan_loaded_line_keeps (line : List Nat) (modules modules1 : List module)
    (h : scan_loaded_line line modules = .ok modules1) : modules <+: modules1 := by
  unfold scan_loaded_line at h
  simp only at h
  split at h
  · cases h
  · split at h
    · cases h
    · split at h
      · simp only [Except.ok.injEq] at h
        subst h
        exact List.prefix_append _ _
      · simp only [Except.ok.injEq] at h
        subst h
        exact List.prefix_refl _

theorem scan_loaded_lines_keeps :
    ∀ (lines : List (List Nat)) (modules modules1 : List module),
      scan_loaded_lines lines modules = .ok modules1 → modules <+: modules1 := by
  intro lines
  induction lines with
  | nil =>
    intro modules modules1 h
    simp only [scan_loaded_lines, Except.ok.injEq] at h
    subst h
    exact List.prefix_refl _
  | cons line lines ih =>
    intro modules modules1 h
    unfold scan_loaded_lines at h
    cases hl : scan_loaded_line line modules with
    | error e => rw [hl] at h; cases h
    | ok ms =>
      rw [hl] at h
      exact List.IsPrefix.trans (scan_loaded_line_keeps line modules ms hl) (ih ms modules1 h)

theorem scan_loaded_modules_keeps (proc : Option (List (List Nat)))
    (modules : List module) (r : Int × List module)
    (h : scan_loaded_modules proc modules = .ok r) : modules <+: r.2 := by
  unfold scan_loaded_modules at h
  cases proc with
  | none =>
    simp only [Except.ok.injEq] at h
    subst h
    exact List.prefix_refl _
  | some lines =>
    dsimp only at h
    cases hl : scan_loaded_lines lines modules with
    | error e => rw [hl] at h; cases h
    | ok ms =>
      rw [hl] at h
      simp only [Except.ok.injEq] at h
      subst h
      exact scan_loaded_lines_keeps lines modules ms hl

theorem scan_module_folder_keeps (L : ElfLayout) (fs : Files) (paths : List (List Nat))
    (modules : List module) (r : Int × List module)
    (h : scan_module_folder L fs paths modules = .ok r) :
    modules <+: r.2 ∧ (names_unique modules → names_unique r.2) := by
  unfold scan_module_folder at h
  cases hl : scan_module_folder_loop L fs paths modules with
  | error e => rw [hl] at h; cases h
  | ok ms =>
    rw [hl] at h
    simp only [Except.ok.injEq] at h
    subst h
    exact scan_module_folder_loop_keeps L fs paths modules ms hl

/-- Claim C9 (amended). After any sequence of `scan_loaded_modules` and
`scan_module_folder` that runs to its end, the records that were in the registry
before are still there, unchanged and in front; and when every operation of the
sequence is a `scan_module_folder` and the names were pairwise different before, they
are pairwise different afterwards. -/
theorem run_scans_first_writer_wins (L : ElfLayout) (fs : Files) (ops : List ScanOp)
    (modules modules1 : List module) (h : run_scans L fs ops modules = .ok modules1) :
    modules <+: modules1 ∧
      ((∀ op ∈ ops, op.is_folder = true) → names_unique modules → names_unique modules1) := by
  induction ops generalizing modules with
  | nil =>
    simp only [run_scans, Except.ok.injEq] at h
    subst h
    exact ⟨List.prefix_refl _, fun _ hu => hu⟩
  | cons op ops ih =>
    cases op with
    | loaded_modules proc =>
      unfold run_scans at h
      cases hs : scan_loaded_modules proc modules with
      | error e => rw [hs] at h; cases h
      | ok r =>
        rw [hs] at h
        dsimp only at h
        obtain ⟨h1, _⟩ := ih r.2 h
        refine ⟨List.IsPrefix.trans (scan_loaded_modules_keeps proc modules r hs) h1, ?_⟩
        intro hall
        have := hall (ScanOp.loaded_modules proc) (List.mem_cons_self _ _)
        simp [ScanOp.is_folder] at this
    | module_folder paths =>
      unfold run_scans at h
      cases hs : scan_module_folder L fs paths modules with
      | error e => rw [hs] at h; cases h
      | ok r =>
        rw [hs] at h
        dsimp only at h
        obtain ⟨h1, h2⟩ := ih r.2 h
        obtain ⟨h3, h4⟩ := scan_module_folder_keeps L fs paths modules r hs
        refine ⟨List.IsPrefix.trans h3 h1, ?_⟩
        intro hall hu
        exact h2 (fun op hop => hall op (List.mem_cons_of_mem _ hop)) (h4 hu)

set_option maxRecDepth 200000

/-- Claim C9 (counterexample). Scanning the live list twice, or scanning the module
directory and then the live list, leaves two records named `a`. -/
theorem run_scans_duplicates_name :
    run_scans elf64 (one_file "/lib/modules/6.1/a.ko" image_plain)
        [ScanOp.loaded_modules (some [proc_line_a]),
          ScanOp.loaded_modules (some [proc_line_a])] [] = .ok
        [⟨str "a", some (str "-"), 16384, 0, State.LOADED⟩,
          ⟨str "a", some (str "-"), 16384, 0, State.LOADED⟩] ∧
      ¬ names_unique [⟨str "a", some (str "-"), 16384, 0, State.LOADED⟩,
          ⟨str "a", some (str "-"), 16384, 0, State.LOADED⟩] ∧
      run_scans elf64 (one_file "/lib/modules/6.1/a.ko" image_plain)
        [ScanOp.module_folder [str "/lib/modules/6.1/a.ko"],
          ScanOp.loaded_modules (some [proc_line_a])] [] = .ok
        [⟨str "a", some (str "foo,bar"), 325, 0, State.SCANNED⟩,
          ⟨str "a", some (str "-"), 16384, 0, State.LOADED⟩] ∧
      ¬ names_unique [⟨str "a", some (str "foo,bar"), 325, 0, State.SCANNED⟩,
          ⟨str "a", some (str "-"), 16384, 0, State.LOADED⟩] :=
  ⟨by rfl, by unfold names_unique; decide, by rfl, by unfold names_unique; decide⟩

theorem run_scans_first_writer_wins_witness :
    run_scans elf64 (one_file "/lib/modules/6.1/a.ko" image_plain)
        [ScanOp.module_folder [str "/lib/modules/6.1/a.ko", str "/lib/modules/6.1/a.ko"]]
        [⟨str "b", some (str "-"), 16384, 0, State.LOADED⟩] = .ok
        [⟨str "b", some (str "-"), 16384, 0, State.LOADED⟩,
          ⟨str "a", some (str "foo,bar"), 325, 0, State.SCANNED⟩] ∧
      ([⟨str "b", some (str "-"), 16384, 0, State.LOADED⟩] : List module) <+:
        [⟨str "b", some (str "-"), 16384, 0, State.LOADED⟩,
          ⟨str "a", some (str "foo,bar"), 325, 0, State.SCANNED⟩] ∧
      ((∀ op ∈ [ScanOp.module_folder
            [str "/lib/modules/6.1/a.ko", str "/lib/modules/6.1/a.ko"]],
          op.is_folder = true) →
        names_unique [⟨str "b", some (str "-"), 16384, 0, State.LOADED⟩] →
        names_unique [⟨str "b", some (str "-"), 16384, 0, State.LOADED⟩,
          ⟨str "a", some (str "foo,bar"), 325, 0, State.SCANNED⟩]) :=
  ⟨by rfl,
   run_scans_first_writer_wins elf64 (one_file "/lib/modules/6.1/a.ko" image_plain)
     [ScanOp.module_folder [str "/lib/modules/6.1/a.ko", str "/lib/modules/6.1/a.ko"]]
     _ _ (by rfl)⟩

/-- The registry `registry_depmod_a` is one that the program builds: the directory
scan of a folder with `a.ko` (`depends=b`) and `b.ko` (`depends=`) yields the records
`a` (depends `b`) and `b` (empty depends), both `SCANNED`, and `main_depmod` sets the
record found under the requested name `a` to `PROBE`. -/
theorem registry_depmod_a_reachable :
    ∃ ms m, scan_module_folder elf64 folder_a_b
        [str "/lib/modules/6.1/a.ko", str "/lib/modules/6.1/b.ko"] [] = .ok (0, ms) ∧
      find_module ms (str "a") = some 0 ∧ ms[0]? = some m ∧ m.state = State.SCANNED ∧
      ms.set 0 { m with state := State.PROBE } = registry_depmod_a :=
  ⟨_, _, by rfl, by rfl, by rfl, by rfl, by rfl⟩

/-! ## Further concrete runs -/

/-- Claim C11 (failing input). Two `PROBE` records `A` (depends on `B`) and `B`
(depends on `A`). With the `depends` strings of `.modinfo` (`B` and `A`) `load_depmod`
attempts and performs both insertions and returns `0`. With the strings of the live
list (`B,` and `A,`) nothing is attempted and `-2` is returned as long as the registry
holds only these two records; once a third record loads in the first pass, the second
pass inserts `A` and `B` as well. -/
theorem load_depmod_cycle_inserted :
    (∃ r, load_depmod world_ok 3
        [mk_module "A" "B" State.PROBE, mk_module "B" "A" State.PROBE] = .ok r ∧
      attempted_names r = [str "A", str "B"] ∧
      r.modules.map (·.state) = [State.LOADED, State.LOADED] ∧ r.ret = 0) ∧
    (∃ r, load_depmod world_ok 3
        [mk_module "A" "B," State.PROBE, mk_module "B" "A," State.PROBE] = .ok r ∧
      attempted_names r = [] ∧
      r.modules.map (·.state) = [State.PROBE, State.PROBE] ∧ r.ret = -2) ∧
    (∃ r, load_depmod world_ok 4 [mk_module "C" "-" State.PROBE,
        mk_module "A" "B," State.PROBE, mk_module "B" "A," State.PROBE] = .ok r ∧
      attempted_names r = [str "C", str "A", str "B"] ∧ r.ret = 0) :=
  ⟨⟨_, rfl, by decide, by decide, by decide⟩, ⟨_, rfl, by decide, by decide, by decide⟩,
   ⟨_, rfl, by decide, by decide⟩⟩

/-- Claim C14 (failing input). Registry: `a_b` (no dependencies) and `c` (depends on
`a_b`), both `PROBE`, no name with a `-`; on disk the files are `a-b.ko` and `c.ko`.
`get_module_path` finds `a-b.ko` with its third probe and leaves the name of the first
record as `a-b`: in the first pass the dependency `a_b` of `c` is not found although
that record is `LOADED`, and when `load_depmod` returns no record is named `a_b`. -/
theorem load_depmod_renames_record :
    (∀ m ∈ registry_dashed, 45 ∉ m.name) ∧
    (∃ s, pass world_dashed registry_dashed [] = .ok s ∧
      s.modules.map (fun m => (m.name, m.state)) =
        [(str "a-b", State.LOADED), (str "c", State.PROBE)] ∧
      s.loaded = 1 ∧ s.todo = 1) ∧
    (∃ r, load_depmod world_dashed 4 registry_dashed = .ok r ∧
      registry_dashed.map (·.name) = [str "a_b", str "c"] ∧
      r.modules.map (·.name) = [str "a-b", str "c"] ∧
      find_module registry_dashed (str "a_b") = some 0 ∧
      find_module r.modules (str "a_b") = none) :=
  ⟨by decide, ⟨_, rfl, by decide, by decide, by decide⟩,
   ⟨_, rfl, by decide, by decide, by decide, by decide⟩⟩

/-- Claim C17 (failing input). Record `A` with the `depends` string `b,c` in a registry
without a record `b`. The first call of `deps_available` returns `-1` and leaves the
buffer as `b\0c`: the `depends` string is now `b`. The second call, on the record as
the first call left it and with the same registry, returns `0`. -/
theorem deps_available_second_call_differs :
    deps_available [mk_module "A" "b,c" State.PROBE] (mk_module "A" "b,c" State.PROBE) =
        .ok (-1, ⟨str "A", some (str "b\x00c"), 0, 0, State.PROBE⟩) ∧
      cstr (str "b,c") = str "b,c" ∧ cstr (str "b\x00c") = str "b" ∧
      deps_available [mk_module "A" "b,c" State.PROBE]
          ⟨str "A", some (str "b\x00c"), 0, 0, State.PROBE⟩ =
        .ok (0, ⟨str "A", some (str "b\x00c"), 0, 0, State.PROBE⟩) :=
  ⟨by rfl, by decide, by decide, by rfl⟩

set_option maxRecDepth 200000

/-- Claim C12 (failing input). The `.modinfo` section `depends=a\0dep` occupies the
bytes 282 to 294 of both images; its last entry has no `=` before the section end.
When the bytes `ends=zzz\0` follow the section, the loop of `get_module_info` does not
stop at that entry: it reads on behind the section, takes `depends=zzz` (address 292 to
302) for an entry and replaces the value `a` collected before. When NUL bytes follow,
it stops and keeps `a`. The two images differ behind the section only. -/
theorem get_module_info_unterminated_entry :
    elf_find_section elf64 image_truncated (str ".modinfo") = .ok (some (282, 13)) ∧
      elf_find_section elf64 image_truncated_nul (str ".modinfo") = .ok (some (282, 13)) ∧
      image_truncated.take (282 + 13) = image_truncated_nul.take (282 + 13) ∧
      get_module_info elf64 (one_file "x.ko" image_truncated) (str "x.ko") = .ok (some
        (⟨[], some (str "zzz"), 304, 0, State.SCANNED⟩,
          [⟨282, str "depends", str "a"⟩, ⟨292, str "depends", str "zzz"⟩])) ∧
      get_module_info elf64 (one_file "x.ko" image_truncated_nul) (str "x.ko") = .ok (some
        (⟨[], some (str "a"), 304, 0, State.SCANNED⟩, [⟨282, str "depends", str "a"⟩])) :=
  ⟨by rfl, by rfl, by rfl, by rfl, by rfl⟩

/-- Claim C13 (failing input). Folder with `bad.ko` (no `.modinfo` section), `a.ko` and
`nodep.ko` (no `depends` entry). `get_module_info` yields no record for `bad.ko`, and
`scan_module_folder` faults on it before it reaches `a.ko`, which it adds when scanned
alone. For `nodep.ko` it adds a record whose `depends` is NULL, and `deps_available`
faults on that record. -/
theorem scan_module_folder_stops_at_failure :
    get_module_info elf64 folder_bad (str "/lib/modules/6.1/bad.ko") = .ok none ∧
      scan_module_folder elf64 folder_bad
        [str "/lib/modules/6.1/bad.ko", str "/lib/modules/6.1/a.ko"] [] =
        .error Fault.null_deref ∧
      scan_module_folder elf64 folder_bad [str "/lib/modules/6.1/a.ko"] [] =
        .ok (0, [⟨str "a", some (str "b"), 297, 0, State.SCANNED⟩]) ∧
      scan_module_folder elf64 folder_bad [str "/lib/modules/6.1/nodep.ko"] [] =
        .ok (0, [⟨str "nodep", none, 299, 0, State.SCANNED⟩]) ∧
      deps_available [⟨str "nodep", none, 299, 0, State.SCANNED⟩]
        ⟨str "nodep", none, 299, 0, State.SCANNED⟩ = .error Fault.null_deref :=
  ⟨by rfl, by rfl, by rfl, by rfl, by rfl⟩

/-! ## What `deps_available` checks -/

theorem cstr_idem (l : List Nat) : cstr (cstr l) = cstr l :=
  cstr_of_nul_free _ (cstr_nul_free l)

theorem find_module_cstr (modules : List module) (name : List Nat) :
    find_module modules (cstr name) = find_module modules name := by
  induction modules with
  | nil => rfl
  | cons m ms ih => simp only [find_module, cstr_idem, ih]

theorem cstr_of_getD_zero (buf : List Nat) (deps : Nat) (h : buf.getD deps 0 = 0) :
    cstr (buf.drop deps) = [] := by
  cases hd : buf.drop deps with
  | nil => rfl
  | cons b bs =>
    have hb : buf[deps]? = some b := by
      have := congrArg List.head? hd
      simpa [List.head?_drop] using this
    simp only [List.getD_eq_getElem?_getD, hb, Option.getD_some] at h
    subst h
    simp [cstr]

theorem cstr_set_take (l : List Nat) (k : Nat) (hk : k < (cstr l).length) :
    cstr (l.set k 0) = (cstr l).take k := by
  induction l generalizing k with
  | nil => simp [cstr] at hk
  | cons b bs ih =>
    by_cases hb : b = 0
    · subst hb; simp [cstr] at hk
    · rw [cstr, if_neg hb] at hk ⊢
      cases k with
      | zero => simp [cstr]
      | succ k =>
        simp only [List.length_cons, Nat.add_lt_add_iff_right] at hk
        rw [List.set_cons_succ, cstr, if_neg hb, ih k hk, List.take_succ_cons]

theorem cstr_drop (l : List Nat) (n : Nat) (hn : n ≤ (cstr l).length) :
    cstr (l.drop n) = (cstr l).drop n := by
  induction l generalizing n with
  | nil => simp [cstr]
  | cons b bs ih =>
    cases n with
    | zero => rfl
    | succ n =>
      by_cases hb : b = 0
      · subst hb; simp [cstr] at hn
      · rw [cstr, if_neg hb] at hn ⊢
        simp only [List.length_cons, Nat.add_le_add_iff_right] at hn
        rw [List.drop_succ_cons, List.drop_succ_cons, ih n hn]

theorem split_commas_ne_nil (s : List Nat) : split_commas s ≠ [] := by
  cases s with
  | nil => simp [split_commas]
  | cons c cs =>
    unfold split_commas
    split
    · simp
    · split <;> simp

theorem split_commas_no_comma (s : List Nat) (h : 44 ∉ s) : split_commas s = [s] := by
  induction s with
  | nil => rfl
  | cons c cs ih =>
    simp only [List.mem_cons, not_or] at h
    unfold split_commas
    rw [if_neg (fun hc => h.1 hc.symm), ih h.2]

theorem split_commas_at (a r : List Nat) (h : 44 ∉ a) :
    split_commas (a ++ 44 :: r) = a :: split_commas r := by
  induction a with
  | nil => simp [split_commas]
  | cons c cs ih =>
    simp only [List.mem_cons, not_or] at h
    rw [List.cons_append, split_commas, if_neg (fun hc => h.1 hc.symm), ih h.2]

theorem strstr_none_absent (s : List Nat) (c : Nat) (h : strstr s [c] = none) : c ∉ s := by
  induction s with
  | nil => simp
  | cons b bs ih =>
    unfold strstr at h
    split at h
    · cases h
    · rename_i hs
      have hb : ¬ b = c := by
        intro hbc
        apply hs
        simp [starts_with, hbc]
      have h1 : strstr bs [c] = none := by
        cases hf : strstr bs [c] with
        | none => rfl
        | some j => simp [hf] at h
      simp only [List.mem_cons, not_or]
      exact ⟨fun hc => hb hc.symm, ih h1⟩

theorem strstr_some_split (s : List Nat) (c k : Nat) (h : strstr s [c] = some k) :
    s = s.take k ++ c :: s.drop (k + 1) ∧ c ∉ s.take k := by
  induction s generalizing k with
  | nil => simp [strstr] at h
  | cons b bs ih =>
    unfold strstr at h
    split at h
    · rename_i hs
      simp only [Option.some.injEq] at h
      subst h
      have hb : b = c := by simpa [starts_with] using hs
      subst hb
      simp
    · rename_i hs
      have hb : ¬ b = c := by
        intro hbc
        apply hs
        simp [starts_with, hbc]
      cases hf : strstr bs [c] with
      | none => simp [hf] at h
      | some j =>
        simp only [hf, Option.map_some', Option.some.injEq] at h
        subst h
        obtain ⟨h1, h2⟩ := ih j hf
        refine ⟨?_, ?_⟩
        · simp only [List.take_succ_cons, List.drop_succ_cons, List.cons_append]
          rw [← h1]
        · simp only [List.take_succ_cons, List.mem_cons, not_or]
          exact ⟨fun hc => hb hc.symm, h2⟩

/-- The loop of `deps_available` returns `0` or `-1`; it returns `0` exactly when every
piece but the last of the string at the cursor, split at its commas, names a record
in state `LOADED`. -/
theorem deps_available_loop_iff (modules : List module) :
    ∀ (fuel : Nat) (buf : List Nat) (deps : Nat), deps ≤ buf.length →
      buf.length + 1 ≤ fuel + deps →
      ∃ r buf1, deps_available_loop modules fuel buf deps = .ok (r, buf1) ∧
        (r = 0 ∨ r = -1) ∧
        (r = 0 ↔ ∀ n ∈ (split_commas (cstr (buf.drop deps))).dropLast,
          loaded_name modules n) := by
  intro fuel
  induction fuel with
  | zero => intro buf deps h1 h2; omega
  | succ fuel ih =>
    intro buf deps h1 h2
    unfold deps_available_loop
    split
    · rename_i h0
      refine ⟨_, _, rfl, Or.inl rfl, ?_⟩
      rw [cstr_of_getD_zero buf deps h0]
      simp [split_commas]
    · split
      · rename_i hnone
        refine ⟨_, _, rfl, Or.inl rfl, ?_⟩
        rw [split_commas_no_comma _ (strstr_none_absent _ _ hnone)]
        simp
      · rename_i k hk
        have hk1 := strstr_lt _ _ _ hk
        have hk2 := cstr_length_le (buf.drop deps)
        simp only [List.length_drop] at hk2
        obtain ⟨hsplit, hnot⟩ := strstr_some_split _ _ _ hk
        have htok : cstr ((buf.set (deps + k) 0).drop deps) =
            (cstr (buf.drop deps)).take k := by
          rw [← List.set_drop, cstr_set_take _ _ hk1]
        have hrest : cstr ((buf.set (deps + k) 0).drop (deps + k + 1)) =
            (cstr (buf.drop deps)).drop (k + 1) := by
          rw [List.drop_set_of_lt _ _ (by omega), ← cstr_drop _ _ (by omega),
            List.drop_drop]
          congr 2
        have hlist : (split_commas (cstr (buf.drop deps))).dropLast =
            (cstr (buf.drop deps)).take k ::
              (split_commas ((cstr (buf.drop deps)).drop (k + 1))).dropLast := by
          conv_lhs => rw [hsplit]
          rw [split_commas_at _ _ hnot, List.dropLast_cons_of_ne_nil (split_commas_ne_nil _)]
        have hfind : find_module modules ((buf.set (deps + k) 0).drop deps) =
            find_module modules ((cstr (buf.drop deps)).take k) := by
          rw [← find_module_cstr, htok]
        dsimp only
        rw [hfind, hlist]
        split
        · rename_i hf
          refine ⟨_, _, rfl, Or.inr rfl, ?_⟩
          constructor
          · intro h; cases h
          · intro h
            obtain ⟨j, hj, _⟩ := h _ (List.mem_cons_self _ _)
            rw [hf] at hj
            cases hj
        · rename_i j hf
          split
          · rename_i hst
            refine ⟨_, _, rfl, Or.inr rfl, ?_⟩
            constructor
            · intro h; cases h
            · intro h
              obtain ⟨j1, hj1, hl⟩ := h _ (List.mem_cons_self _ _)
              rw [hf] at hj1
              cases hj1
              exact absurd hl hst
          · rename_i hst
            have hst1 : state_at modules j = some State.LOADED := by
              simpa using hst
            obtain ⟨r, buf1, hr, hr01, hiff⟩ := ih (buf.set (deps + k) 0) (deps + k + 1)
              (by simp only [List.length_set]; omega)
              (by simp only [List.length_set]; omega)
            refine ⟨r, buf1, hr, hr01, ?_⟩
            rw [hiff, hrest]
            constructor
            · intro h n hn
              rcases List.mem_cons.mp hn with h3 | h3
              · subst h3
                exact ⟨j, hf, hst1⟩
              · exact h n h3
            · intro h n hn
              exact h n (List.mem_cons_of_mem _ hn)

/-- Claim C16. For every registry and every record with a non-NULL `depends` string
`d`, `deps_available` returns `0` or `-1`, and it returns `0` exactly when `d` is `-`
or every piece except the last of `d` split at `,` names a record in state `LOADED`.
The piece behind the last comma, the whole string when it has no comma, takes no part
in the result. -/
theorem deps_available_iff (modules : List module) (m : module) (buf : List Nat)
    (h : m.depends = some buf) :
    ∃ r m1, deps_available modules m = .ok (r, m1) ∧ (r = 0 ∨ r = -1) ∧
      (r = 0 ↔ (cstr buf = [45] ∨
        ∀ n ∈ (split_commas (cstr buf)).dropLast, loaded_name modules n)) := by
  unfold deps_available
  rw [h]
  dsimp only
  split
  · rename_i hs
    exact ⟨_, _, rfl, Or.inl rfl, by simp [hs]⟩
  · rename_i hs
    obtain ⟨r, buf1, hr, hr01, hiff⟩ := deps_available_loop_iff modules (buf.length + 1) buf 0
      (Nat.zero_le _) (by omega)
    rw [hr]
    refine ⟨_, _, rfl, hr01, ?_⟩
    rw [hiff]
    simp only [List.drop_zero, hs, false_or]

theorem deps_available_iff_witness :
    (mk_module "c" "a,zzz" State.PROBE).depends = some (str "a,zzz") ∧
      ∃ r m1, deps_available [mk_module "a" "-" State.LOADED]
          (mk_module "c" "a,zzz" State.PROBE) = .ok (r, m1) ∧ (r = 0 ∨ r = -1) ∧
        (r = 0 ↔ (cstr (str "a,zzz") = [45] ∨
          ∀ n ∈ (split_commas (cstr (str "a,zzz"))).dropLast,
            loaded_name [mk_module "a" "-" State.LOADED] n)) :=
  ⟨rfl, deps_available_iff [mk_module "a" "-" State.LOADED]
    (mk_module "c" "a,zzz" State.PROBE) (str "a,zzz") rfl⟩

/-- The last piece is not looked up: with `a` loaded, the string `a,zzz` is accepted
although no record is named `zzz`, and so is the string `zzz` alone. -/
theorem deps_available_last_piece_unchecked :
    find_module [mk_module "a" "-" State.LOADED] (str "zzz") = none ∧
      deps_available [mk_module "a" "-" State.LOADED] (mk_module "c" "a,zzz" State.PROBE) =
        .ok (0, ⟨str "c", some (str "a\x00zzz"), 0, 0, State.PROBE⟩) ∧
      deps_available [mk_module "a" "-" State.LOADED] (mk_module "c" "zzz" State.PROBE) =
        .ok (0, mk_module "c" "zzz" State.PROBE) :=
  ⟨by decide, by rfl, by rfl⟩

/-- What `deps_available` leaves alone: the fields `name`, `size`, `usage` and `state`
of the record, and the length of its `depends` buffer, in which only bytes that held a
comma are changed (to NUL). -/
theorem deps_available_frame (modules : List module) (m m1 : module) (r : Int)
    (h : deps_available modules m = .ok (r, m1)) :
    m1.name = m.name ∧ m1.size = m.size ∧ m1.usage = m.usage ∧ m1.state = m.state := by
  unfold deps_available at h
  split at h
  · cases h
  · split at h
    · cases h
      exact ⟨rfl, rfl, rfl, rfl⟩
    · split at h
      · cases h
      · cases h
        exact ⟨rfl, rfl, rfl, rfl⟩

/-! ## The sentinel `-` -/

theorem deps_available_dash (modules : List module) (m : module) (buf : List Nat)
    (hd : m.depends = some buf) (hs : cstr buf = [45]) :
    deps_available modules m = .ok (0, m) := by
  unfold deps_available
  rw [hd]
  dsimp only
  rw [if_pos hs]

theorem visit_frame (w : World) (j : Nat) (s s1 : Run) (h : visit w j s = .ok s1) :
    (∀ i, i ≠ j → s1.modules[i]? = s.modules[i]?) ∧ s.log <+: s1.log := by
  unfold visit at h
  split at h
  · cases h
    exact ⟨fun _ _ => rfl, List.prefix_refl _⟩
  · split at h
    · split at h
      · cases h
      · split at h
        · cases h
          refine ⟨fun i hi => ?_, List.prefix_append _ _⟩
          simp only
          rw [List.getElem?_set_ne (Ne.symm hi)]
        · cases h
          refine ⟨fun i hi => ?_, List.prefix_refl _⟩
          simp only
          rw [List.getElem?_set_ne (Ne.symm hi)]
    · cases h
      exact ⟨fun _ _ => rfl, List.prefix_refl _⟩

theorem pass_from_frame (w : World) :
    ∀ (n pos : Nat) (s s1 : Run), pass_from w n pos s = .ok s1 →
      (∀ i, (i < pos ∨ pos + n ≤ i) → s1.modules[i]? = s.modules[i]?) ∧
        s.log <+: s1.log := by
  intro n
  induction n with
  | zero =>
    intro pos s s1 h
    simp only [pass_from, Except.ok.injEq] at h
    subst h
    exact ⟨fun _ _ => rfl, List.prefix_refl _⟩
  | succ n ih =>
    intro pos s s1 h
    unfold pass_from at h
    cases hv : visit w pos s with
    | error e => rw [hv] at h; cases h
    | ok s2 =>
      rw [hv] at h
      dsimp only at h
      obtain ⟨h1, h2⟩ := visit_frame w pos s s2 hv
      obtain ⟨h3, h4⟩ := ih (pos + 1) s2 s1 h
      refine ⟨fun i hi => ?_, List.IsPrefix.trans h2 h4⟩
      rw [h3 i (by omega), h1 i (by omega)]

theorem pass_from_add (w : World) :
    ∀ (a b pos : Nat) (s : Run),
      pass_from w (a + b) pos s =
        match pass_from w a pos s with
        | .error e => .error e
        | .ok s1 => pass_from w b (pos + a) s1 := by
  intro a
  induction a with
  | zero => intro b pos s; simp [pass_from]
  | succ a ih =>
    intro b pos s
    rw [show a + 1 + b = (a + b) + 1 by omega]
    simp only [pass_from]
    cases hv : visit w pos s with
    | error e => rfl
    | ok s2 =>
      simp only
      rw [ih b (pos + 1) s2, show pos + 1 + a = pos + (a + 1) by omega]

theorem load_depmod_loop_log (w : World) :
    ∀ (fuel : Nat) (modules : List module) (log : List Attempt) (p : Nat) (r : Result),
      load_depmod_loop w fuel modules log p = .ok r → log <+: r.log := by
  intro fuel
  induction fuel with
  | zero => intro modules log p r h; simp [load_depmod_loop] at h
  | succ fuel ih =>
    intro modules log p r h
    unfold load_depmod_loop at h
    cases hp : pass w modules log with
    | error e => rw [hp] at h; cases h
    | ok s =>
      rw [hp] at h
      dsimp only at h
      have hlog : log <+: s.log := (pass_from_frame w _ _ _ _ hp).2
      split at h
      · exact List.IsPrefix.trans hlog (ih _ _ _ _ h)
      · cases h
        exact hlog

/-- Claim C15. A record whose `depends` string is exactly `-` is accepted by
`deps_available` whatever the registry holds, with the record left as it is; and when
such a record is in `PROBE`, the first pass of `load_depmod` attempts its insertion
(the registry being one on which `load_depmod` runs without fault, with enough fuel).
The attempts of the first pass are the first attempts of the whole run. -/
theorem deps_available_sentinel (w : World) (fuel : Nat) (modules : List module) (i : Nat)
    (m : module) (buf : List Nat) (hm : modules[i]? = some m) (hp : m.state = State.PROBE)
    (hd : m.depends = some buf) (hs : cstr buf = [45])
    (hwf : probe_deps_present modules) (hfuel : probe_count modules < fuel) :
    (∀ reg, deps_available reg m = .ok (0, m)) ∧
      ∃ s r, pass w modules [] = .ok s ∧ load_depmod w fuel modules = .ok r ∧
        s.log <+: r.log ∧ ∃ a ∈ s.log, a.idx = i ∧ a.before[i]? = some m := by
  refine ⟨fun reg => deps_available_dash reg m buf hd hs, ?_⟩
  obtain ⟨r, hr, _⟩ :=
    load_depmod_loop_inv w (fun _ _ => True) (fun _ _ _ _ _ _ => trivial) fuel modules [] 0
      hwf hfuel trivial
  obtain ⟨fuel, rfl⟩ : ∃ f, fuel = f + 1 := ⟨fuel - 1, by omega⟩
  have hr1 : load_depmod w (fuel + 1) modules = .ok r := hr
  unfold load_depmod_loop at hr
  cases hpass : pass w modules [] with
  | error e => rw [hpass] at hr; cases hr
  | ok s =>
    rw [hpass] at hr
    dsimp only at hr
    have hlog : s.log <+: r.log := by
      split at hr
      · exact load_depmod_loop_log w _ _ _ _ _ hr
      · cases hr
        exact List.prefix_refl _
    refine ⟨s, r, rfl, hr1, hlog, ?_⟩
    have hi : i < modules.length := by
      rcases Nat.lt_or_ge i modules.length with h1 | h1
      · exact h1
      · rw [List.getElem?_eq_none h1] at hm; cases hm
    unfold pass at hpass
    rw [show modules.length = i + (1 + (modules.length - i - 1)) by omega,
      pass_from_add] at hpass
    cases h1 : pass_from w i 0 ⟨modules, 0, 0, []⟩ with
    | error e => rw [h1] at hpass; cases hpass
    | ok s1 =>
      rw [h1] at hpass
      dsimp only at hpass
      rw [pass_from_add] at hpass
      cases h2 : pass_from w 1 (0 + i) s1 with
      | error e => rw [h2] at hpass; cases hpass
      | ok s2 =>
        rw [h2] at hpass
        dsimp only at hpass
        have hs1 : s1.modules[i]? = some m := by
          rw [(pass_from_frame w _ _ _ _ h1).1 i (by omega)]
          exact hm
        have hlog2 : s2.log <+: s.log := (pass_from_frame w _ _ _ _ hpass).2
        simp only [pass_from, Nat.zero_add] at h2
        unfold visit at h2
        rw [hs1] at h2
        dsimp only at h2
        rw [if_pos hp, deps_available_dash s1.modules m buf hd hs] at h2
        simp only [if_true, Except.ok.injEq] at h2
        have hex : ∃ a, a ∈ s2.log ∧ a.idx = i ∧ a.before = s1.modules := by
          subst h2
          exact ⟨_, List.mem_append_right _ (List.mem_singleton_self _), rfl, rfl⟩
        obtain ⟨a, ha, hai, hab⟩ := hex
        exact ⟨a, hlog2.subset ha, hai, by rw [hab]; exact hs1⟩

/-! ## The parsing loop at an entry without `=` -/

/-- The loop of `get_module_info` on a section that holds the entries `es` and then,
behind NUL bytes, a string without `=` that is terminated by a NUL: wherever behind the
entries the section ends (`stop`), the loop visits the entries of `es`, stops at that
string and returns the value of the last `depends` entry among `es`. The result is
the same for all bytes `rest` behind the terminating NUL. -/
theorem get_module_info_loop_stops :
    ∀ (es : List (Nat × List Nat × List Nat)) (pre : List Nat) (z tail : Nat)
      (post : List Nat) (d : Option (List Nat)) (seen : List Entry) (fuel stop : Nat),
      entries_wf es → benign_tail post → es.length + 1 ≤ fuel →
      pre.length + z + (section_bytes es tail).length ≤ stop →
      ∃ seen1,
        get_module_info_loop (pre ++ List.replicate z 0 ++ section_bytes es tail ++ post)
          stop fuel pre.length d seen = .ok (depends_of d es, seen ++ seen1) ∧
        seen1.map (fun e => (e.key, e.value)) = es.map (fun e => (e.2.1, e.2.2)) := by
  intro es
  induction es with
  | nil =>
    intro pre z tail post d seen fuel stop _ hpost hfuel _
    obtain ⟨j, junk, rest, hp, hj, hj0, hj61⟩ := hpost
    refine ⟨[], ?_, rfl⟩
    obtain ⟨fuel, rfl⟩ : ∃ f, fuel = f + 1 := ⟨fuel - 1, by simp at hfuel; omega⟩
    unfold get_module_info_loop
    simp only [section_bytes, depends_of, List.append_nil]
    by_cases hlt : pre.length < stop
    · rw [if_pos hlt]
      have hmap : pre ++ List.replicate z 0 ++ List.replicate tail 0 ++ post =
          pre ++ (List.replicate (z + tail + j) 0 ++ (junk ++ 0 :: rest)) := by
        rw [hp]
        simp only [List.append_assoc, List.replicate_add]
      rw [hmap, List.drop_left, skip_nul_replicate, skip_nul_of_head junk _ hj hj0]
      simp only [Option.map_some', Nat.zero_add]
      unfold cstr_at
      rw [← List.append_assoc, drop_prefix _ _ _ (by simp), cstr_in_append_nul junk rest hj0]
      simp only
      rw [strstr_absent junk 61 hj61]
    · rw [if_neg hlt]
  | cons e es ih =>
    intro pre z tail post d seen fuel stop hwf hpost hfuel hstop
    obtain ⟨pad, key, value⟩ := e
    have hwf1 := hwf (pad, key, value) (List.mem_cons_self _ _)
    simp only at hwf1
    obtain ⟨hk0, hk61, hv0⟩ := hwf1
    obtain ⟨fuel, rfl⟩ : ∃ f, fuel = f + 1 := ⟨fuel - 1, by simp at hfuel; omega⟩
    have hent0 : 0 ∉ key ++ 61 :: value := by
      simp only [List.mem_append, List.mem_cons, not_or]
      exact ⟨hk0, by decide, hv0⟩
    have hentne : key ++ 61 :: value ≠ [] := by simp
    have hlen : (section_bytes ((pad, key, value) :: es) tail).length =
        pad + (key ++ 61 :: value).length + 1 + (section_bytes es tail).length := by
      simp only [section_bytes, List.length_append, List.length_replicate, List.length_cons]
      omega
    have hcur : (pre ++ List.replicate (z + pad) 0 ++ (key ++ 61 :: value)).length =
        pre.length + (z + pad) + (key ++ 61 :: value).length := by
      simp only [List.length_append, List.length_replicate]
    obtain ⟨seen1, h1, h2⟩ := ih (pre ++ List.replicate (z + pad) 0 ++ (key ++ 61 :: value)) 1
      tail post (if key = str "depends" then some value else d)
      (seen ++ [⟨pre.length + (z + pad), key, value⟩]) fuel stop
      (fun x hx => hwf x (List.mem_cons_of_mem _ hx)) hpost (by simpa using hfuel)
      (by rw [hcur]; omega)
    refine ⟨⟨pre.length + (z + pad), key, value⟩ :: seen1, ?_, by simp [h2]⟩
    have hmap : pre ++ List.replicate z 0 ++ section_bytes ((pad, key, value) :: es) tail ++
        post = pre ++ (List.replicate (z + pad) 0 ++
          ((key ++ 61 :: value) ++ 0 :: (section_bytes es tail ++ post))) := by
      simp only [section_bytes, List.append_assoc, List.replicate_add, List.cons_append]
    have hmap1 : pre ++ List.replicate (z + pad) 0 ++ (key ++ 61 :: value) ++
        List.replicate 1 0 ++ section_bytes es tail ++ post =
        pre ++ (List.replicate (z + pad) 0 ++
          ((key ++ 61 :: value) ++ 0 :: (section_bytes es tail ++ post))) := by
      simp only [List.append_assoc, List.replicate_one, List.cons_append, List.nil_append,
        List.singleton_append]
    rw [hmap1, hcur] at h1
    unfold get_module_info_loop
    have hlt : pre.length < stop := by omega
    rw [if_pos hlt, hmap, List.drop_left, skip_nul_replicate,
      skip_nul_of_head _ _ hentne hent0]
    simp only [Option.map_some', Nat.zero_add]
    unfold cstr_at
    rw [← List.append_assoc, drop_prefix _ _ _ (by simp),
      cstr_in_append_nul _ _ hent0]
    simp only
    rw [strstr_at_sep key value 61 hk61]
    simp only
    rw [strncmp_depends key value hk61]
    have htk : (key ++ 61 :: value).take key.length = key := by simp
    have hdr : (key ++ 61 :: value).drop (key.length + 1) = value := by
      rw [List.drop_append_eq_append_drop]
      simp
    rw [htk, hdr, List.append_assoc]
    simp only [decide_eq_true_eq]
    rw [h1]
    simp [depends_of]

theorem get_module_info_loop_stops_witness :
    entries_wf [(0, str "depends", str "a")] ∧ benign_tail (str "junk\x00x=y\x00") ∧
      ∃ seen1,
        get_module_info_loop
          ([1, 2] ++ List.replicate 0 0 ++ section_bytes [(0, str "depends", str "a")] 0 ++
            str "junk\x00x=y\x00") 21 2 ([1, 2] : List Nat).length none [] =
          .ok (depends_of none [(0, str "depends", str "a")], [] ++ seen1) ∧
        seen1.map (fun e => (e.key, e.value)) =
          [(0, str "depends", str "a")].map (fun e => (e.2.1, e.2.2)) :=
  ⟨by unfold entries_wf; decide,
   ⟨0, str "junk", str "x=y\x00", by decide, by decide, by decide, by decide⟩,
   get_module_info_loop_stops [(0, str "depends", str "a")] [1, 2] 0 0
     (str "junk\x00x=y\x00") none [] 2 21 (by unfold entries_wf; decide)
     ⟨0, str "junk", str "x=y\x00", by decide, by decide, by decide, by decide⟩
     (by decide) (by decide)⟩

theorem deps_available_sentinel_witness :
    ([mk_module "A" "zzz," State.PROBE, mk_module "C" "-" State.PROBE] : List module)[1]? =
        some (mk_module "C" "-" State.PROBE) ∧
      probe_deps_present [mk_module "A" "zzz," State.PROBE, mk_module "C" "-" State.PROBE] ∧
      ((∀ reg, deps_available reg (mk_module "C" "-" State.PROBE) =
          .ok (0, mk_module "C" "-" State.PROBE)) ∧
        ∃ s r, pass world_ok
            [mk_module "A" "zzz," State.PROBE, mk_module "C" "-" State.PROBE] [] = .ok s ∧
          load_depmod world_ok 3
            [mk_module "A" "zzz," State.PROBE, mk_module "C" "-" State.PROBE] = .ok r ∧
          s.log <+: r.log ∧
          ∃ a ∈ s.log, a.idx = 1 ∧ a.before[1]? = some (mk_module "C" "-" State.PROBE)) :=
  ⟨rfl, by unfold probe_deps_present; decide,
   deps_available_sentinel world_ok 3
     [mk_module "A" "zzz," State.PROBE, mk_module "C" "-" State.PROBE] 1
     (mk_module "C" "-" State.PROBE) (str "-") rfl rfl rfl (by decide)
     (by unfold probe_deps_present; decide) (by decide)⟩

end Kmodloader
